import Mathlib

/-!
A shallow embedding of the confidis belief engine (`src/src/graph.rs`,
`src/src/command.rs`, `src/src/equalifier/*.rs`).

Machine floats (`f64`) are modelled by exact rationals `ℚ`.  The two
transcendental library functions the engine calls (`f64::log`,
`f64::sqrt`) are threaded through as an explicit parameter record `MF`,
so every definition stays computable; theorems instantiate `MF` with
rational stand-ins that agree with the real functions on the arguments
the runs actually evaluate.  Panics (`unwrap`, `expect`, out-of-bounds
indexing) are modelled by `Option`, resp. the `Outcome.panic`
constructor of the command dispatcher.  The content fingerprint
(`metro::hash64(content)`) is modelled by the content string itself:
equal content gives equal hash, which is the only property the engine
relies on (hash collisions are outside the model).
-/

attribute [local semireducible] Rat.add Rat.mul Rat.sub Rat.inv Rat.ofScientific

namespace Confidis

/-- Association-list model of Rust's `HashMap<String, V>`: lookup of the
first binding of a key. -/
def alGet : List (String × α) → String → Option α
  | [], _ => none
  | (k, v) :: t, key => if k = key then some v else alGet t key

/-- In-place update of an existing key, `none` when the key is absent:
the call sites in `graph.rs` reach an absent key only through
`get_mut(..).unwrap()`, i.e. a panic. -/
def alUpd : List (String × α) → String → (α → α) → Option (List (String × α))
  | [], _, _ => none
  | (k, v) :: t, key, f =>
    if k = key then some ((k, f v) :: t)
    else (alUpd t key f).map ((k, v) :: ·)

/-- Insert-or-replace, Rust `HashMap::insert`. -/
def alSet : List (String × α) → String → α → List (String × α)
  | [], key, v => [(key, v)]
  | (k, w) :: t, key, v => if k = key then (key, v) :: t else (k, w) :: alSet t key v

/-- List indexing, `none` out of bounds (Rust `vec[i]` panics there). -/
def nth : List α → ℕ → Option α
  | [], _ => none
  | a :: _, 0 => some a
  | _ :: t, n + 1 => nth t n

/-- `mapM` over `Option`, written out so that its equations are directly
usable in proofs. -/
def omapM (f : α → Option β) : List α → Option (List β)
  | [] => some []
  | a :: t => (f a).bind fun b => (omapM f t).map (b :: ·)

/-! ### Number parsing (Rust `str::parse`) -/

def digitsVal (l : List Char) : ℕ := l.foldl (fun acc c => acc * 10 + (c.toNat - 48)) 0

/-- Split a character list at the first character satisfying `p`;
the second component is `none` when no such character occurs. -/
def splitAtChar (p : Char → Bool) : List Char → List Char × Option (List Char)
  | [] => ([], none)
  | c :: r =>
    if p c then ([], some r)
    else
      let s := splitAtChar p r
      (c :: s.1, s.2)

/-- Split a character list at every character satisfying `p`
(structural version of the standard splitters, so that concrete runs
reduce in the kernel). -/
def splitListOnP (p : Char → Bool) : List Char → List (List Char)
  | [] => [[]]
  | c :: r =>
    if p c then [] :: splitListOnP p r
    else
      match splitListOnP p r with
      | [] => [[c]]
      | h :: t => (c :: h) :: t

/-- Rust `str::split` with a single-character delimiter (the only form
the repository uses: `split(",")`, `split("=")`). -/
def splitStrOn (delim : Char) (s : String) : List String :=
  (splitListOnP (fun c => c == delim) s.toList).map (fun l => ⟨l⟩)

/-- Modelled from the Rust standard library: `str::parse::<f64>`
restricted to finite decimal literals (optional sign, decimal digits
with optional fractional part, optional decimal exponent); the special
float forms (`inf`, `NaN`, hex) are outside the model, and the result is
the exact rational value of the literal. -/
def parseF64 (s : String) : Option ℚ :=
  let l := s.toList
  let sgn : ℚ := match l with | '-' :: _ => -1 | _ => 1
  let l1 : List Char := match l with | '-' :: r => r | '+' :: r => r | _ => l
  let mant := splitAtChar (fun c => c == 'e' || c == 'E') l1
  let ipart := splitAtChar (· == '.') mant.1
  let ip := ipart.1
  let fp := (ipart.2).getD []
  if ip.isEmpty && fp.isEmpty then none
  else if !(ip.all Char.isDigit && fp.all Char.isDigit) then none
  else
    let base : ℚ := sgn * ((digitsVal ip : ℚ) + (digitsVal fp : ℚ) / (10 : ℚ) ^ fp.length)
    match mant.2 with
    | none => some base
    | some ec =>
      let esgn : ℤ := match ec with | '-' :: _ => -1 | _ => 1
      let ed : List Char := match ec with | '-' :: r => r | '+' :: r => r | _ => ec
      if ed.isEmpty || !(ed.all Char.isDigit) then none
      else some (base * (10 : ℚ) ^ (esgn * (digitsVal ed : ℤ)))

/-- Modelled from the Rust standard library: `str::parse::<usize>`. -/
def parseUsize (s : String) : Option ℕ :=
  let l := s.toList
  let d : List Char := match l with | '+' :: r => r | _ => l
  if d.isEmpty || !(d.all Char.isDigit) then none else some (digitsVal d)

/-- Rust `str::split_whitespace`: split on whitespace, dropping empty
tokens. -/
def splitWhitespace (s : String) : List String :=
  ((splitListOnP Char.isWhitespace s.toList).map (fun l => (⟨l⟩ : String))).filter
    (fun t => t != "")

/-! ### Data model (`command.rs`, `graph.rs`) -/

structure Answer where
  hash : String
  content : String
  source : String
deriving DecidableEq

/-- `Answer::new`; the fingerprint `metro::hash64(content)` is modelled
by `content` itself. -/
def Answer.new (content source : String) : Answer := ⟨content, content, source⟩

structure Source where
  name : String
  quality : ℚ
  strength : ℚ
deriving DecidableEq

structure Question where
  name : String
  correct_answers : List Answer
  weight : ℚ
  confidence : ℚ
  sources : List String
  answers : List Answer
deriving DecidableEq

/-- `Question::default()` with the given name, as built by
`create_question_if_not_exists`. -/
def Question.fresh (name : String) : Question := ⟨name, [], 0, 0, [], []⟩

inductive VecDistAlgo
  | l2
  | l1
  | percent_not_equal
  | iou
deriving DecidableEq

/-- Modelled from the spec (§6): `VecDistAlgo::from` (the equalifier
module file defining it is not under `src/`); recognized names are
`l1`, `l2`, `percent_not_equal`, `iou`. -/
def VecDistAlgo.fromString : String → Option VecDistAlgo
  | "l1" => some .l1
  | "l2" => some .l2
  | "percent_not_equal" => some .percent_not_equal
  | "iou" => some .iou
  | _ => none

/-- The similarity strategies installable by `Configure`. -/
inductive Equalifier
  | exact
  | numeric (max_distance : ℚ)
  | numeric_vec (allowed_difference : ℚ) (vec_length : ℕ) (diff_fn : VecDistAlgo)
deriving DecidableEq

/-- The real-valued library functions used by the engine: `lg b x`
stands for the f64 computation `x.log(b)` and `sqrtq` for `f64::sqrt`.
Threading them as a parameter keeps the embedding computable. -/
structure MF where
  lg : ℚ → ℚ → ℚ
  sqrtq : ℚ → ℚ

structure Graph where
  sources : List (String × Source)
  questions : List (String × Question)
  default_source_quality : ℚ
  initial_source_strength : ℚ
  maximum_strength : ℚ
  log_weight_factor : ℚ
  quality_of_believed_sources : ℚ
  equalifier : Equalifier
deriving DecidableEq

/-- `Graph::new()`. -/
def Graph.new : Graph := ⟨[], [], 1/2, 1, 100, 10, 999/1000, .exact⟩

/-! ### The numeric-vector equalifier (`src/equalifier/numeric_vec_equalifier.rs`) -/

/-- `split_to_f64_vec` from `numeric_vec_equalifier.rs`:
`content.split(delimiter).map(|e| e.parse::<f64>().unwrap())`; the
`unwrap` panics on an unparsable component, modelled by `none`. -/
def split_to_f64_vec (content : String) (delimiter : Char) : Option (List ℚ) :=
  omapM parseF64 (splitStrOn delimiter content)

inductive vec_dist_algo
  | L2
  | L1
  | percent_not_equal
deriving DecidableEq

structure NumericVecEqualifier where
  allowed_difference : ℚ
  vec_length : ℕ
  diff_fn : vec_dist_algo
deriving DecidableEq

/-- `clamp` from the `num` crate, as used by `normalize`. -/
def clampQ (x lo hi : ℚ) : ℚ := max lo (min x hi)

/-- `NumericVecEqualifier::get_distance` from
`src/equalifier/numeric_vec_equalifier.rs`. -/
def NumericVecEqualifier.get_distance (mf : MF) (e : NumericVecEqualifier) (a b : Answer) :
    Option ℚ :=
  (split_to_f64_vec a.content ',').bind fun av =>
  (split_to_f64_vec b.content ',').map fun bv =>
  if av.length ≠ bv.length then 1
  else
    let pairs := av.zip bv
    match e.diff_fn with
    | .L2 =>
      clampQ (mf.sqrtq (pairs.foldl (fun acc p => acc + (p.1 - p.2) ^ 2) 0) /
        e.allowed_difference) 0 1
    | .L1 =>
      clampQ ((pairs.foldl (fun acc p => acc + |p.1 - p.2|) 0) / e.allowed_difference) 0 1
    | .percent_not_equal =>
      clampQ (((pairs.filter (fun p => p.1 != p.2)).length : ℚ) / (av.length : ℚ) /
        e.allowed_difference) 0 1

/-- `NumericVecEqualifier::is_valid_answer` from
`src/equalifier/numeric_vec_equalifier.rs`: compares the parsed length
with `vec_length`; panics (`none`) when a component does not parse. -/
def NumericVecEqualifier.is_valid_answer (e : NumericVecEqualifier) (a : Answer) :
    Option Bool :=
  (split_to_f64_vec a.content ',').map fun av => decide (av.length = e.vec_length)

/-! ### Engine-side pairwise distance -/

/-- Engine-side pairwise distance.  The `exact` case is
`ExactEqualifier::get_distance` from `src/equalifier/exact_equalifier.rs`;
the `numeric` and `numeric_vec` cases are modelled from the spec (§4.1)
because the equalifier module files installed by `Configure` are not
under `src/`.  An unparsable content is treated as maximally different
(distance 1), per §4.2 an invalid answer simply forms its own cluster. -/
def getDistance (mf : MF) : Equalifier → Answer → Answer → ℚ
  | .exact, a, b => if a.content = b.content then 0 else 1
  | .numeric md, a, b =>
    match parseF64 a.content, parseF64 b.content with
    | some x, some y => clampQ (|x - y| / md) 0 1
    | _, _ => 1
  | .numeric_vec ad _ df, a, b =>
    match split_to_f64_vec a.content ',', split_to_f64_vec b.content ',' with
    | some av, some bv =>
      if av.length ≠ bv.length then 1
      else
        let pairs := av.zip bv
        match df with
        | .l2 => clampQ (mf.sqrtq (pairs.foldl (fun acc p => acc + (p.1 - p.2) ^ 2) 0) / ad) 0 1
        | .l1 => clampQ ((pairs.foldl (fun acc p => acc + |p.1 - p.2|) 0) / ad) 0 1
        | .percent_not_equal =>
          clampQ (((pairs.filter (fun p => p.1 != p.2)).length : ℚ) / (av.length : ℚ) / ad) 0 1
        | .iou =>
          let ai := av.dedup
          let bi := bv.dedup
          let inter := (ai.filter (fun x => decide (x ∈ bi))).length
          let union := (ai ++ bi).dedup.length
          1 - (inter : ℚ) / (union : ℚ)
    | _, _ => 1

/-! ### Clustering (`src/cluster.rs`, not under `src/`) -/

/-- One step of the clusterer: the answer with index `i` joins the first
cluster whose first member is at distance `< 1`, else opens a new
cluster at the end. -/
def insertIntoClusters (d : Answer → Answer → ℚ) (answers : List Answer) (a : Answer) (i : ℕ) :
    List (List ℕ) → List (List ℕ)
  | [] => [[i]]
  | c :: rest =>
    let fits : Bool :=
      match (c.head?).bind (nth answers) with
      | some rep => decide (d rep a < 1)
      | none => false
    if fits then (c ++ [i]) :: rest else c :: insertIntoClusters d answers a i rest

def clustersGo (d : Answer → Answer → ℚ) (answers : List Answer) :
    ℕ → List Answer → List (List ℕ) → List (List ℕ)
  | _, [], cls => cls
  | i, a :: rest, cls => clustersGo d answers (i + 1) rest (insertIntoClusters d answers a i cls)

/-- Modelled from the spec (§4.2): `compute_clusters` (`src/cluster.rs`
is not under `src/`).  Each answer, in insertion order, joins the first
cluster whose first member is at strategy distance `< 1`, else opens a
new cluster; clusters hold indices into the answer list, in insertion
order, and an empty answer list yields the empty partition. -/
def compute_clusters (mf : MF) (eq : Equalifier) (answers : List Answer) : List (List ℕ) :=
  clustersGo (getDistance mf eq) answers 0 answers []

/-! ### Confidence computation (`graph.rs`) -/

def argmaxGo : ℕ → ℕ → ℚ → List ℚ → ℕ
  | _, bi, _, [] => bi
  | i, bi, bv, x :: r => if bv < x then argmaxGo (i + 1) i x r else argmaxGo (i + 1) bi bv r

/-- `argmaxf` from `graph.rs`: the loop keeps the earliest index of the
maximum (strict `>`); `vec[0]` panics on an empty vector, modelled by
`none`. -/
def argmaxf : List ℚ → Option ℕ
  | [] => none
  | x :: r => some (argmaxGo 0 0 x (x :: r))

/-- The fold computing a cluster's `incorrect_chance`
(`graph.rs`, `compute_answer_clusters_with_confidence`):
`acc * (1 - member_source_quality)` over the members, with panicking
indexing and source lookup modelled by `Option`. -/
def clusterIncorrectChance (st : List (String × Source)) (answers : List Answer) :
    List ℕ → ℚ → Option ℚ
  | [], acc => some acc
  | i :: r, acc =>
    (nth answers i).bind fun a =>
    (alGet st a.source).bind fun s =>
    clusterIncorrectChance st answers r (acc * (1 - s.quality))

/-- `Graph::compute_answer_clusters_with_confidence`. -/
def compute_answer_clusters_with_confidence (mf : MF) (g : Graph) (qn : String) :
    Option (List (List ℕ) × List ℚ × ℕ) :=
  (alGet g.questions qn).bind fun q =>
  let clusters := compute_clusters mf g.equalifier q.answers
  (omapM (fun c => (clusterIncorrectChance g.sources q.answers c 1).map (1 - ·)) clusters).bind
    fun confs =>
  (argmaxf confs).map fun cc => (clusters, confs, cc)

/-- `Graph::compute_question_answers`: store the correct cluster's
members as `correct_answers`, its confidence, and the derived weight
`-log_{log_weight_factor}(1 - confidence)` (0 when at most one correct
answer). -/
def compute_question_answers (mf : MF) (g : Graph) (qn : String) : Option Graph :=
  (compute_answer_clusters_with_confidence mf g qn).bind fun (clusters, confs, cc) =>
  (nth clusters cc).bind fun cl =>
  (alGet g.questions qn).bind fun q =>
  (omapM (nth q.answers) cl).bind fun corr =>
  (nth confs cc).bind fun conf =>
  let w : ℚ := if 1 < corr.length then -(mf.lg g.log_weight_factor (1 - conf)) else 0
  (alUpd g.questions qn (fun q' =>
    { q' with correct_answers := corr, confidence := conf, weight := w })).map
    fun qt => { g with questions := qt }

/-! ### The question effect on sources (`graph.rs`) -/

/-- Membership in the hash set built from `correct_answers`
(`correct_answers.insert(a.hash)` / `contains(&a.hash)`). -/
def questionCorr (q : Question) : Answer → Bool :=
  fun a => q.correct_answers.any (fun ca => ca.hash == a.hash)

/-- The per-source update of one `remove_question_effect` iteration:
`new_quality = (quality*strength - weight*c) / (strength - weight)`,
`strength -= weight`, with `c` the 0/1 `originally_correct_fac`. -/
def removeSrc (w c : ℚ) (s : Source) : Source :=
  { s with
    quality := (s.quality * s.strength - w * c) / (s.strength - w)
    strength := s.strength - w }

@[simp] theorem removeSrc_name (w c : ℚ) (s : Source) : (removeSrc w c s).name = s.name := rfl

@[simp] theorem removeSrc_strength (w c : ℚ) (s : Source) :
    (removeSrc w c s).strength = s.strength - w := rfl

theorem removeSrc_quality (w c : ℚ) (s : Source) :
    (removeSrc w c s).quality = (s.quality * s.strength - w * c) / (s.strength - w) := rfl

/-- One iteration of the `remove_question_effect` loop on one answer. -/
def updRemove (w : ℚ) (corr : Answer → Bool) (st : List (String × Source)) (a : Answer) :
    Option (List (String × Source)) :=
  alUpd st a.source (removeSrc w (if corr a then 1 else 0))

def removeEffect (w : ℚ) (corr : Answer → Bool) :
    List (String × Source) → List Answer → Option (List (String × Source))
  | st, [] => some st
  | st, a :: t => (updRemove w corr st a).bind fun st' => removeEffect w corr st' t

/-- The per-source update of one `add_question_effect` iteration:
`new_quality = (quality*strength + weight*c) / (strength + weight)`,
`strength = min(strength + weight, maximum_strength)`. -/
def addSrc (maxs w c : ℚ) (s : Source) : Source :=
  { s with
    quality := (s.quality * s.strength + w * c) / (s.strength + w)
    strength := min (s.strength + w) maxs }

@[simp] theorem addSrc_name (maxs w c : ℚ) (s : Source) : (addSrc maxs w c s).name = s.name := rfl

@[simp] theorem addSrc_strength (maxs w c : ℚ) (s : Source) :
    (addSrc maxs w c s).strength = min (s.strength + w) maxs := rfl

theorem addSrc_quality (maxs w c : ℚ) (s : Source) :
    (addSrc maxs w c s).quality = (s.quality * s.strength + w * c) / (s.strength + w) := rfl

/-- One iteration of the `add_question_effect` loop on one answer. -/
def updAdd (maxs w : ℚ) (corr : Answer → Bool) (st : List (String × Source)) (a : Answer) :
    Option (List (String × Source)) :=
  alUpd st a.source (addSrc maxs w (if corr a then 1 else 0))

def addEffect (maxs w : ℚ) (corr : Answer → Bool) :
    List (String × Source) → List Answer → Option (List (String × Source))
  | st, [] => some st
  | st, a :: t => (updAdd maxs w corr st a).bind fun st' => addEffect maxs w corr st' t

/-- `Graph::remove_question_effect`. -/
def remove_question_effect (g : Graph) (qn : String) : Option Graph :=
  (alGet g.questions qn).bind fun q =>
  (removeEffect q.weight (questionCorr q) g.sources q.answers).map fun st =>
    { g with sources := st }

/-- `Graph::add_question_effect`. -/
def add_question_effect (g : Graph) (qn : String) : Option Graph :=
  (alGet g.questions qn).bind fun q =>
  (addEffect g.maximum_strength q.weight (questionCorr q) g.sources q.answers).map fun st =>
    { g with sources := st }

/-! ### Lazy creation (`graph.rs`) -/

def create_source_if_not_exists (g : Graph) (sn : String) : Graph :=
  if (alGet g.sources sn).isSome then g
  else
    { g with sources :=
        g.sources ++ [(sn, ⟨sn, g.default_source_quality, g.initial_source_strength⟩)] }

def create_question_if_not_exists (g : Graph) (qn : String) : Graph :=
  if (alGet g.questions qn).isSome then g
  else { g with questions := g.questions ++ [(qn, Question.fresh qn)] }

/-! ### Commands and the dispatcher (`command.rs`, `graph.rs`) -/

inductive CommandType
  | invalid
  | set
  | getAnswer
  | getSource
  | believe
  | configure
  | testEquality
  | getAnswers
deriving DecidableEq

structure AnswerConfidencePair where
  answer : String
  confidence : ℚ
deriving DecidableEq

/-- `CommandResponse`; absent fields are the `Default` (`None`). -/
structure CommandResponse where
  cmd : CommandType
  confidence : Option ℚ
  answer : Option String
  quality : Option ℚ
  distance : Option ℚ
  answers : Option (List AnswerConfidencePair)
deriving DecidableEq

/-- A parsed command record (`Command`), one constructor per arm the
dispatcher handles; the unused `distribution` field is omitted. -/
inductive Command
  | set (question answer source : String)
  | getAnswer (question : String)
  | getSource (source : String)
  | believe (source : String)
  | configure (config_key config_val : String)
  | testEquality (answer1 answer2 : String)
  | getAnswers (question : String)
  | invalid
deriving DecidableEq

/-- Result of `execute_command`: `Ok(response)` carrying the new engine
state, `Err(msg)` carrying the (unchanged-by-construction-or-not) state,
or a Rust panic. -/
inductive Outcome
  | panic
  | err (msg : String) (g : Graph)
  | ok (resp : CommandResponse) (g : Graph)
deriving DecidableEq

/-- The parameter map built at the top of the `Configure` arm:
whitespace-separated tokens containing `=`, split at the first `=`,
later bindings overriding earlier ones (Rust `HashMap::insert`). -/
def configParams (val : String) : List (String × String) :=
  ((splitWhitespace val).filter (fun s => s.toList.contains '=')).foldl
    (fun acc s =>
      let comps := splitStrOn '=' s
      alSet acc ((nth comps 0).getD "") ((nth comps 1).getD "")) []

/-- The GetAnswers dedup-and-pair loop over one cluster: skip answers
whose hash was already emitted, else push `(content, cluster confidence)`. -/
def buildPairsCluster (answers : List Answer) (conf : ℚ) :
    List ℕ → List String → List AnswerConfidencePair →
    Option (List String × List AnswerConfidencePair)
  | [], seen, acc => some (seen, acc)
  | i :: r, seen, acc =>
    (nth answers i).bind fun a =>
    if seen.contains a.hash then buildPairsCluster answers conf r seen acc
    else buildPairsCluster answers conf r (a.hash :: seen) (acc ++ [⟨a.content, conf⟩])

/-- The outer GetAnswers loop over clusters, indexing
`cluster_confidences[cluster_index]` in step. -/
def buildPairs (answers : List Answer) :
    List (List ℕ) → List ℚ → List String → List AnswerConfidencePair →
    Option (List AnswerConfidencePair)
  | [], _, _, acc => some acc
  | _ :: _, [], _, _ => none
  | c :: cr, conf :: confr, seen, acc =>
    (buildPairsCluster answers conf c seen acc).bind fun sa =>
    buildPairs answers cr confr sa.1 sa.2

/-- `Graph::execute_command`. -/
def execute_command (mf : MF) (g : Graph) (cmd : Command) : Outcome :=
  match cmd with
  | .set qn ans src =>
    let g1 := create_source_if_not_exists g src
    let g2 := create_question_if_not_exists g1 qn
    let a := Answer.new ans src
    match remove_question_effect g2 qn with
    | none => .panic
    | some g3 =>
      match alUpd g3.questions qn (fun q => { q with answers := q.answers ++ [a] }) with
      | none => .panic
      | some qt =>
        match compute_question_answers mf { g3 with questions := qt } qn with
        | none => .panic
        | some g5 =>
          match add_question_effect g5 qn with
          | none => .panic
          | some g6 => .ok ⟨.set, none, none, none, none, none⟩ g6
  | .getAnswer qn =>
    let g1 := create_question_if_not_exists g qn
    match remove_question_effect g1 qn with
    | none => .panic
    | some g2 =>
      match compute_question_answers mf g2 qn with
      | none => .panic
      | some g3 =>
        match add_question_effect g3 qn with
        | none => .panic
        | some g4 =>
          match alGet g4.questions qn with
          | none => .panic
          | some q =>
            let ansContent : String :=
              match q.correct_answers.head? with
              | some a => a.content
              | none => "None"
            .ok ⟨.getAnswer, some q.confidence, some ansContent, none, none, none⟩ g4
  | .getSource sn =>
    let g1 := create_source_if_not_exists g sn
    match alGet g1.sources sn with
    | none => .panic
    | some s => .ok ⟨.getSource, none, none, some s.quality, none, none⟩ g1
  | .believe sn =>
    let g1 := create_source_if_not_exists g sn
    match alUpd g1.sources sn (fun s =>
        { s with
          quality := g1.quality_of_believed_sources
          strength := g1.maximum_strength }) with
    | none => .panic
    | some st => .ok ⟨.believe, none, none, none, none, none⟩ { g1 with sources := st }
  | .configure key val =>
    let params := configParams val
    if key = "comparison_method" then
      match (splitWhitespace val).head? with
      | none => .panic
      | some tok =>
        if tok = "exact" then
          .ok ⟨.configure, none, none, none, none, none⟩ { g with equalifier := .exact }
        else if tok = "numeric" then
          match (alGet params "max_distance").bind parseF64 with
          | none => .err "max_distance must be specified" g
          | some md =>
            .ok ⟨.configure, none, none, none, none, none⟩ { g with equalifier := .numeric md }
        else if tok = "numeric_vec" then
          match (alGet params "allowed_difference").bind parseF64 with
          | none => .err "allowed_difference must be specified (try 1.0)" g
          | some ad =>
            match (alGet params "vec_length").bind parseUsize with
            | none => .err "vec_length must be specified (vector lengths must be fixed)" g
            | some vl =>
              match (alGet params "diff_fn").bind VecDistAlgo.fromString with
              | none => .err "diff_fn must be specified (l1, l2, percent_not_equal, iou)" g
              | some df =>
                .ok ⟨.configure, none, none, none, none, none⟩
                  { g with equalifier := .numeric_vec ad vl df }
        else
          .err ("unknown comparison method \"" ++ key ++
            "\". Try exact, numeric, or numeric_vec") g
    else if key = "default_source_quality" then
      match parseF64 val with
      | some v => .ok ⟨.configure, none, none, none, none, none⟩
          { g with default_source_quality := v }
      | none => .ok ⟨.configure, none, none, none, none, none⟩ g
    else if key = "log_weight_factor" then
      match parseF64 val with
      | some v => .ok ⟨.configure, none, none, none, none, none⟩
          { g with log_weight_factor := v }
      | none => .ok ⟨.configure, none, none, none, none, none⟩ g
    else if key = "initial_source_strength" then
      match parseF64 val with
      | some v => .ok ⟨.configure, none, none, none, none, none⟩
          { g with initial_source_strength := v }
      | none => .ok ⟨.configure, none, none, none, none, none⟩ g
    else if key = "maximum_strength" then
      match parseF64 val with
      | some v => .ok ⟨.configure, none, none, none, none, none⟩
          { g with maximum_strength := v }
      | none => .ok ⟨.configure, none, none, none, none, none⟩ g
    else
      .err ("Unknown configuration key: \"" ++ key ++ "\"") g
  | .testEquality a1 a2 =>
    .ok ⟨.testEquality, none, none, none,
      some (getDistance mf g.equalifier (Answer.new a1 "None") (Answer.new a2 "None")),
      none⟩ g
  | .getAnswers qn =>
    match compute_answer_clusters_with_confidence mf g qn with
    | none => .panic
    | some analysis =>
      match alGet g.questions qn with
      | none => .panic
      | some q =>
        match buildPairs q.answers analysis.1 analysis.2.1 [] [] with
        | none => .panic
        | some ps => .ok ⟨.getAnswers, none, none, none, none, some ps⟩ g
  | .invalid => .err "Not implemented or invalid command" g

/-- One command of a driver loop: the engine state after the command,
`none` when the command panicked (an `Err` leaves the returned state,
which for every `Err` the dispatcher can produce is the unchanged one). -/
def step (mf : MF) (g : Graph) (cmd : Command) : Option Graph :=
  match execute_command mf g cmd with
  | .ok _ g' => some g'
  | .err _ g' => some g'
  | .panic => none

def runCmds (mf : MF) : Graph → List Command → Option Graph
  | g, [] => some g
  | g, c :: r => (step mf g c).bind fun g' => runCmds mf g' r

/-! ### Basic lemmas about the association-list operations -/

theorem alGet_upd_self {α : Type} {t t' : List (String × α)} {k : String} {f : α → α}
    (h : alUpd t k f = some t') : alGet t' k = (alGet t k).map f := by
  induction t generalizing t' with
  | nil => simp [alUpd] at h
  | cons p r ih =>
    obtain ⟨k1, v1⟩ := p
    by_cases hk : k1 = k
    · subst hk
      simp [alUpd] at h
      subst h
      simp [alGet]
    · simp only [alUpd, hk, if_false] at h
      obtain ⟨r', hr', rfl⟩ := Option.map_eq_some'.mp h
      simp [alGet, hk, ih hr']

theorem alGet_upd_ne {α : Type} {t t' : List (String × α)} {k k' : String} {f : α → α}
    (h : alUpd t k f = some t') (hne : k' ≠ k) : alGet t' k' = alGet t k' := by
  induction t generalizing t' with
  | nil => simp [alUpd] at h
  | cons p r ih =>
    obtain ⟨k1, v1⟩ := p
    by_cases hk : k1 = k
    · subst hk
      simp [alUpd] at h
      subst h
      simp [alGet, Ne.symm hne]
    · simp only [alUpd, hk, if_false] at h
      obtain ⟨r', hr', rfl⟩ := Option.map_eq_some'.mp h
      by_cases hk1 : k1 = k'
      · simp [alGet, hk1]
      · simp [alGet, hk1, ih hr']

theorem alUpd_isSome_of_get {α : Type} {t : List (String × α)} {k : String} {v : α} (f : α → α)
    (h : alGet t k = some v) : (alUpd t k f).isSome := by
  induction t generalizing v with
  | nil => simp [alGet] at h
  | cons p r ih =>
    obtain ⟨k1, v1⟩ := p
    by_cases hk : k1 = k
    · simp [alUpd, hk]
    · simp only [alGet, hk, if_false] at h
      simpa [alUpd, hk] using ih h

theorem alGet_isSome_of_upd {α : Type} {t t' : List (String × α)} {k : String} {f : α → α}
    (h : alUpd t k f = some t') : (alGet t k).isSome := by
  induction t generalizing t' with
  | nil => simp [alUpd] at h
  | cons p r ih =>
    obtain ⟨k1, v1⟩ := p
    by_cases hk : k1 = k
    · simp [alGet, hk]
    · simp only [alUpd, hk, if_false] at h
      obtain ⟨r', hr', rfl⟩ := Option.map_eq_some'.mp h
      simpa [alGet, hk] using ih hr'

theorem alGet_upd_isSome {α : Type} {t t' : List (String × α)} {k k' : String} {f : α → α}
    (h : alUpd t k f = some t') (hs : (alGet t k').isSome) : (alGet t' k').isSome := by
  by_cases hk : k' = k
  · subst hk
    rw [alGet_upd_self h]
    simpa using hs
  · rwa [alGet_upd_ne h hk]

theorem alGet_append_of_ne {α : Type} {t : List (String × α)} {k k0 : String} {v : α}
    (h : k ≠ k0) : alGet (t ++ [(k0, v)]) k = alGet t k := by
  induction t with
  | nil => simp [alGet, Ne.symm h]
  | cons p r ih =>
    obtain ⟨k1, v1⟩ := p
    by_cases hk : k1 = k
    · simp [alGet, hk]
    · simp [alGet, hk, ih]

theorem alGet_append_self_of_none {α : Type} {t : List (String × α)} {k0 : String} {v : α}
    (h : alGet t k0 = none) : alGet (t ++ [(k0, v)]) k0 = some v := by
  induction t with
  | nil => simp [alGet]
  | cons p r ih =>
    obtain ⟨k1, v1⟩ := p
    by_cases hk : k1 = k0
    · simp [alGet, hk] at h
    · simp only [alGet, hk, if_false] at h
      simp [alGet, hk, ih h]

theorem alGet_append_of_some {α : Type} {t : List (String × α)} {k k0 : String} {v s : α}
    (h : alGet t k = some s) : alGet (t ++ [(k0, v)]) k = some s := by
  induction t with
  | nil => simp [alGet] at h
  | cons p r ih =>
    obtain ⟨k1, v1⟩ := p
    by_cases hk : k1 = k
    · simp only [alGet, hk, if_pos rfl] at h ⊢
      exact h
    · simp only [alGet, hk, if_false] at h ⊢
      exact ih h

theorem nth_mem {α : Type} {l : List α} {i : ℕ} {x : α} (h : nth l i = some x) : x ∈ l := by
  induction l generalizing i with
  | nil => simp [nth] at h
  | cons a t ih =>
    cases i with
    | zero => simp [nth] at h; simp [h]
    | succ n => simp only [nth] at h; exact List.mem_cons_of_mem a (ih h)

theorem nth_lt_length {α : Type} {l : List α} {i : ℕ} {x : α} (h : nth l i = some x) :
    i < l.length := by
  induction l generalizing i with
  | nil => simp [nth] at h
  | cons a t ih =>
    cases i with
    | zero => simp
    | succ n => simpa using ih h

theorem omapM_eq_filterMap {α β : Type} {f : α → Option β} {l : List α} {ys : List β}
    (h : omapM f l = some ys) : ys = l.filterMap f := by
  induction l generalizing ys with
  | nil => simp [omapM] at h; simp [h]
  | cons a t ih =>
    simp only [omapM, Option.bind_eq_some] at h
    obtain ⟨b, hb, h2⟩ := h
    obtain ⟨r', hr', rfl⟩ := Option.map_eq_some'.mp h2
    simp [List.filterMap_cons, hb, ih hr']

theorem omapM_eq_map {α β : Type} {f : α → Option β} {gs : α → β} {l : List α} {ys : List β}
    (h : omapM f l = some ys) (hf : ∀ x y, f x = some y → y = gs x) : ys = l.map gs := by
  induction l generalizing ys with
  | nil => simp [omapM] at h; simp [h]
  | cons a t ih =>
    simp only [omapM, Option.bind_eq_some] at h
    obtain ⟨b, hb, h2⟩ := h
    obtain ⟨r', hr', rfl⟩ := Option.map_eq_some'.mp h2
    simp [hf a b hb, ih hr']

/-! ### The argmax characterization -/

/-- Value of `nth` with default 0, for stating facts about `argmaxf`. -/
def nthD (v : List ℚ) (i : ℕ) : ℚ := (nth v i).getD 0

@[simp] theorem nth_cons_zero {α : Type} (a : α) (t : List α) : nth (a :: t) 0 = some a := rfl

@[simp] theorem nth_cons_succ {α : Type} (a : α) (t : List α) (n : ℕ) :
    nth (a :: t) (n + 1) = nth t n := rfl

@[simp] theorem nthD_cons_zero (x : ℚ) (t : List ℚ) : nthD (x :: t) 0 = x := rfl

@[simp] theorem nthD_cons_succ (x : ℚ) (t : List ℚ) (n : ℕ) :
    nthD (x :: t) (n + 1) = nthD t n := rfl

theorem argmaxGo_spec :
    ∀ (l : List ℚ) (i bi : ℕ) (bv : ℚ),
      (argmaxGo i bi bv l = bi ∧ ∀ m, m < l.length → nthD l m ≤ bv) ∨
      (∃ j, j < l.length ∧ argmaxGo i bi bv l = i + j ∧ bv < nthD l j ∧
        (∀ m, m < l.length → nthD l m ≤ nthD l j) ∧ ∀ m, m < j → nthD l m < nthD l j) := by
  intro l
  induction l with
  | nil =>
    intro i bi bv
    left
    exact ⟨rfl, fun m hm => by simp at hm⟩
  | cons x r ih =>
    intro i bi bv
    by_cases hx : bv < x
    · rcases ih (i + 1) i x with ⟨heq, hle⟩ | ⟨j, hj, heq, hlt, hmax, hstrict⟩
      · right
        refine ⟨0, by simp, ?_, ?_, ?_, ?_⟩
        · simp [argmaxGo, hx, heq]
        · simpa using hx
        · intro m hm
          cases m with
          | zero => simp
          | succ n => simpa using hle n (by simpa using hm)
        · intro m hm
          omega
      · right
        refine ⟨j + 1, by simpa using hj, ?_, ?_, ?_, ?_⟩
        · simp only [argmaxGo, if_pos hx, heq]
          omega
        · exact lt_trans hx (by simpa using hlt)
        · intro m hm
          cases m with
          | zero => simpa using le_of_lt hlt
          | succ n => simpa using hmax n (by simpa using hm)
        · intro m hm
          cases m with
          | zero => simpa using hlt
          | succ n => simpa using hstrict n (by omega)
    · rcases ih (i + 1) bi bv with ⟨heq, hle⟩ | ⟨j, hj, heq, hlt, hmax, hstrict⟩
      · left
        refine ⟨by simp [argmaxGo, hx, heq], ?_⟩
        intro m hm
        cases m with
        | zero => simpa using le_of_not_lt hx
        | succ n => simpa using hle n (by simpa using hm)
      · right
        refine ⟨j + 1, by simpa using hj, ?_, ?_, ?_, ?_⟩
        · simp only [argmaxGo, if_neg hx, heq]
          omega
        · simpa using hlt
        · intro m hm
          cases m with
          | zero => exact le_trans (le_of_not_lt hx) (le_of_lt (by simpa using hlt))
          | succ n => simpa using hmax n (by simpa using hm)
        · intro m hm
          cases m with
          | zero => exact lt_of_le_of_lt (le_of_not_lt hx) (by simpa using hlt)
          | succ n => simpa using hstrict n (by omega)

theorem argmaxf_spec {v : List ℚ} {cc : ℕ} (h : argmaxf v = some cc) :
    cc < v.length ∧ (∀ m, m < v.length → nthD v m ≤ nthD v cc) ∧
      ∀ m, m < cc → nthD v m < nthD v cc := by
  cases v with
  | nil => simp [argmaxf] at h
  | cons x r =>
    simp only [argmaxf, Option.some.injEq] at h
    subst h
    rcases argmaxGo_spec (x :: r) 0 0 x with ⟨heq, hle⟩ | ⟨j, hj, heq, _, hmax, hstrict⟩
    · rw [heq]
      refine ⟨by simp, ?_, ?_⟩
      · intro m hm
        simpa using hle m hm
      · intro m hm
        omega
    · rw [heq, Nat.zero_add]
      exact ⟨hj, hmax, hstrict⟩

/-! ### Shape of the computed clusters -/

theorem insertIntoClusters_spec {d : Answer → Answer → ℚ} {answers : List Answer} {a : Answer}
    {i : ℕ} {cls : List (List ℕ)}
    (h : ∀ c ∈ cls, c ≠ [] ∧ (∀ j ∈ c, j < i) ∧ c.Pairwise (· < ·)) :
    ∀ c ∈ insertIntoClusters d answers a i cls,
      c ≠ [] ∧ (∀ j ∈ c, j < i + 1) ∧ c.Pairwise (· < ·) := by
  induction cls with
  | nil =>
    intro c hc
    simp only [insertIntoClusters, List.mem_singleton] at hc
    subst hc
    exact ⟨by simp, by simp, by simp⟩
  | cons c0 rest ih =>
    intro c hc
    simp only [insertIntoClusters] at hc
    split at hc
    · rcases List.mem_cons.mp hc with rfl | hc'
      · obtain ⟨hne, hbound, hpw⟩ := h c0 (by simp)
        refine ⟨by simp [hne], ?_, ?_⟩
        · intro j hj
          rcases List.mem_append.mp hj with hj' | hj'
          · exact Nat.lt_succ_of_lt (hbound j hj')
          · simp at hj'
            omega
        · rw [List.pairwise_append]
          refine ⟨hpw, by simp, ?_⟩
          intro x hx y hy
          simp at hy
          subst hy
          exact hbound x hx
      · obtain ⟨hne, hbound, hpw⟩ := h c (List.mem_cons_of_mem _ hc')
        exact ⟨hne, fun j hj => Nat.lt_succ_of_lt (hbound j hj), hpw⟩
    · rcases List.mem_cons.mp hc with rfl | hc'
      · obtain ⟨hne, hbound, hpw⟩ := h c (by simp)
        exact ⟨hne, fun j hj => Nat.lt_succ_of_lt (hbound j hj), hpw⟩
      · exact ih (fun c' hcc => h c' (List.mem_cons_of_mem _ hcc)) c hc'

theorem clustersGo_spec {d : Answer → Answer → ℚ} {answers : List Answer} :
    ∀ (rest : List Answer) (i : ℕ) (cls : List (List ℕ)),
      (∀ c ∈ cls, c ≠ [] ∧ (∀ j ∈ c, j < i) ∧ c.Pairwise (· < ·)) →
      ∀ c ∈ clustersGo d answers i rest cls,
        c ≠ [] ∧ (∀ j ∈ c, j < i + rest.length) ∧ c.Pairwise (· < ·) := by
  intro rest
  induction rest with
  | nil =>
    intro i cls h c hc
    simpa [clustersGo] using h c hc
  | cons a rrest ih =>
    intro i cls h c hc
    simp only [clustersGo] at hc
    have hr := ih (i + 1) _ (insertIntoClusters_spec h) c hc
    refine ⟨hr.1, ?_, hr.2.2⟩
    intro j hj
    have := hr.2.1 j hj
    simp only [List.length_cons]
    omega

theorem compute_clusters_spec {mf : MF} {eq : Equalifier} {answers : List Answer} :
    ∀ c ∈ compute_clusters mf eq answers,
      c ≠ [] ∧ (∀ j ∈ c, j < answers.length) ∧ c.Pairwise (· < ·) := by
  intro c hc
  have := clustersGo_spec answers 0 [] (by simp) c hc
  simpa using this

/-! ### The cluster-confidence fold -/

/-- Total read of a source's quality, for the spec-side formulas: the
quality of the source when present, 0 otherwise (all uses are guarded by
presence). -/
def qualD (st : List (String × Source)) (sn : String) : ℚ :=
  ((alGet st sn).map Source.quality).getD 0

/-- The spec-side cluster-confidence formula of §4.5:
`1 - Π_{a ∈ C} (1 - q_{S(a)})` over the members of the cluster. -/
def specClusterConfidence (st : List (String × Source)) (answers : List Answer)
    (c : List ℕ) : ℚ :=
  1 - ((c.filterMap (nth answers)).map (fun a => 1 - qualD st a.source)).prod

theorem clusterIncorrectChance_spec {st : List (String × Source)} {answers : List Answer} :
    ∀ (c : List ℕ) (acc x : ℚ), clusterIncorrectChance st answers c acc = some x →
      x = acc * ((c.filterMap (nth answers)).map (fun a => 1 - qualD st a.source)).prod := by
  intro c
  induction c with
  | nil =>
    intro acc x h
    simp only [clusterIncorrectChance, Option.some.injEq] at h
    simp [← h]
  | cons i r ih =>
    intro acc x h
    simp only [clusterIncorrectChance, Option.bind_eq_some] at h
    obtain ⟨a, ha, s, hs, hrec⟩ := h
    rw [ih _ _ hrec]
    simp only [List.filterMap_cons, ha, List.map_cons, List.prod_cons, qualD, hs]
    simp only [Option.map_some', Option.getD_some]
    ring

theorem clusterIncorrectChance_congr {st st' : List (String × Source)} {answers : List Answer}
    (hpt : ∀ k, alGet st k = alGet st' k) :
    ∀ (c : List ℕ) (acc : ℚ),
      clusterIncorrectChance st answers c acc = clusterIncorrectChance st' answers c acc := by
  intro c
  induction c with
  | nil => intro acc; rfl
  | cons i r ih =>
    intro acc
    simp only [clusterIncorrectChance]
    cases ha : nth answers i with
    | none => rfl
    | some a =>
      simp only [Option.some_bind]
      rw [hpt a.source]
      cases alGet st' a.source with
      | none => rfl
      | some s => simp only [Option.some_bind, ih]

/-! ### Per-source trajectory of the question effects -/

/-- Number of answers of question contributed by source `sn`. -/
def cntSrc (l : List Answer) (sn : String) : ℕ :=
  (l.filter (fun a => a.source == sn)).length

/-- Number of those answers that are in the correct set. -/
def cntCorr (corr : Answer → Bool) (l : List Answer) (sn : String) : ℕ :=
  (l.filter (fun a => a.source == sn && corr a)).length

theorem cntSrc_cons (a : Answer) (t : List Answer) (sn : String) :
    cntSrc (a :: t) sn = (if a.source = sn then 1 else 0) + cntSrc t sn := by
  by_cases h : a.source = sn
  · simp [cntSrc, List.filter_cons, h, Nat.add_comm]
  · simp [cntSrc, List.filter_cons, h]

theorem cntCorr_cons (corr : Answer → Bool) (a : Answer) (t : List Answer) (sn : String) :
    cntCorr corr (a :: t) sn =
      (if a.source = sn ∧ corr a = true then 1 else 0) + cntCorr corr t sn := by
  by_cases h1 : a.source = sn
  · by_cases h2 : corr a = true
    · simp [cntCorr, List.filter_cons, h1, h2, Nat.add_comm]
    · simp [cntCorr, List.filter_cons, h1, h2]
  · simp [cntCorr, List.filter_cons, h1]

theorem removeEffect_strength {w : ℚ} {corr : Answer → Bool} {sn : String} :
    ∀ {l : List Answer} {st st' : List (String × Source)} {s0 : Source},
      removeEffect w corr st l = some st' → alGet st sn = some s0 →
      ∃ s', alGet st' sn = some s' ∧ s'.name = s0.name ∧
        s'.strength = s0.strength - (cntSrc l sn : ℚ) * w := by
  intro l
  induction l with
  | nil =>
    intro st st' s0 h hget
    simp only [removeEffect, Option.some.injEq] at h
    subst h
    exact ⟨s0, hget, rfl, by simp [cntSrc]⟩
  | cons a t ih =>
    intro st st' s0 h hget
    simp only [removeEffect, Option.bind_eq_some] at h
    obtain ⟨st1, hu, hrest⟩ := h
    simp only [updRemove] at hu
    by_cases ha : a.source = sn
    · rw [ha] at hu
      have h1 := alGet_upd_self hu
      rw [hget] at h1
      simp only [Option.map_some'] at h1
      obtain ⟨s', hs', hname, hstr⟩ := ih hrest h1
      refine ⟨s', hs', by simpa using hname, ?_⟩
      rw [hstr]
      simp only [removeSrc_strength]
      rw [cntSrc_cons, if_pos ha]
      push_cast
      ring
    · have h1 := alGet_upd_ne hu (fun he => ha he.symm)
      obtain ⟨s', hs', hname, hstr⟩ := ih hrest (h1.trans hget)
      refine ⟨s', hs', hname, ?_⟩
      rw [hstr, cntSrc_cons, if_neg ha]
      push_cast
      ring

theorem removeEffect_mass {w : ℚ} {corr : Answer → Bool} {sn : String} :
    ∀ {l : List Answer} {st st' : List (String × Source)} {s0 : Source},
      removeEffect w corr st l = some st' → alGet st sn = some s0 →
      (∀ j : ℕ, 1 ≤ j → j ≤ cntSrc l sn → s0.strength - (j : ℚ) * w ≠ 0) →
      ∃ s', alGet st' sn = some s' ∧ s'.name = s0.name ∧
        s'.strength = s0.strength - (cntSrc l sn : ℚ) * w ∧
        s'.quality * s'.strength =
          s0.quality * s0.strength - (cntCorr corr l sn : ℚ) * w := by
  intro l
  induction l with
  | nil =>
    intro st st' s0 h hget _
    simp only [removeEffect, Option.some.injEq] at h
    subst h
    exact ⟨s0, hget, rfl, by simp [cntSrc], by simp [cntCorr]⟩
  | cons a t ih =>
    intro st st' s0 h hget hden
    simp only [removeEffect, Option.bind_eq_some] at h
    obtain ⟨st1, hu, hrest⟩ := h
    simp only [updRemove] at hu
    by_cases ha : a.source = sn
    · rw [ha] at hu
      have h1 := alGet_upd_self hu
      rw [hget] at h1
      simp only [Option.map_some'] at h1
      have hcnt : 1 ≤ cntSrc (a :: t) sn := by
        rw [cntSrc_cons, if_pos ha]
        omega
      have hd1 : s0.strength - w ≠ 0 := by
        have := hden 1 le_rfl hcnt
        simpa using this
      have hden' : ∀ j : ℕ, 1 ≤ j → j ≤ cntSrc t sn →
          (removeSrc w (if corr a then 1 else 0) s0).strength - (j : ℚ) * w ≠ 0 := by
        intro j hj1 hj2
        have hj3 : j + 1 ≤ cntSrc (a :: t) sn := by
          rw [cntSrc_cons, if_pos ha]
          omega
        have := hden (j + 1) (by omega) hj3
        simp only [removeSrc_strength]
        push_cast at this ⊢
        intro hx
        exact this (by linarith)
      obtain ⟨s', hs', hname, hstr, hmass⟩ := ih hrest h1 hden'
      have hqs : (removeSrc w (if corr a then 1 else 0) s0).quality *
          (removeSrc w (if corr a then 1 else 0) s0).strength =
          s0.quality * s0.strength - w * (if corr a then 1 else 0) := by
        simp only [removeSrc_quality, removeSrc_strength]
        exact div_mul_cancel₀ _ hd1
      refine ⟨s', hs', by simpa using hname, ?_, ?_⟩
      · rw [hstr]
        simp only [removeSrc_strength]
        rw [cntSrc_cons, if_pos ha]
        push_cast
        ring
      · rw [hmass, hqs, cntCorr_cons]
        by_cases hc : corr a = true
        · simp only [ha, hc, and_self, if_true]
          push_cast
          ring
        · have hz : (if a.source = sn ∧ corr a = true then 1 else 0 : ℕ) = 0 := by simp [hc]
          have hz2 : (if corr a = true then (1 : ℚ) else 0) = 0 := by simp [hc]
          rw [hz, hz2]
          push_cast
          ring
    · have h1 := alGet_upd_ne hu (fun he => ha he.symm)
      have hden' : ∀ j : ℕ, 1 ≤ j → j ≤ cntSrc t sn → s0.strength - (j : ℚ) * w ≠ 0 := by
        intro j hj1 hj2
        exact hden j hj1 (by rw [cntSrc_cons, if_neg ha]; omega)
      obtain ⟨s', hs', hname, hstr, hmass⟩ := ih hrest (h1.trans hget) hden'
      refine ⟨s', hs', hname, ?_, ?_⟩
      · rw [hstr, cntSrc_cons, if_neg ha]
        push_cast
        ring
      · rw [hmass, cntCorr_cons, if_neg (fun hh => ha hh.1)]
        push_cast
        ring

theorem addEffect_mass {maxs w : ℚ} {corr : Answer → Bool} {sn : String} (hw : 0 ≤ w) :
    ∀ {l : List Answer} {st st' : List (String × Source)} {s0 : Source},
      addEffect maxs w corr st l = some st' → alGet st sn = some s0 →
      s0.strength + (cntSrc l sn : ℚ) * w ≤ maxs →
      (∀ j : ℕ, 1 ≤ j → j ≤ cntSrc l sn → s0.strength + (j : ℚ) * w ≠ 0) →
      ∃ s', alGet st' sn = some s' ∧ s'.name = s0.name ∧
        s'.strength = s0.strength + (cntSrc l sn : ℚ) * w ∧
        s'.quality * s'.strength =
          s0.quality * s0.strength + (cntCorr corr l sn : ℚ) * w := by
  intro l
  induction l with
  | nil =>
    intro st st' s0 h hget _ _
    simp only [addEffect, Option.some.injEq] at h
    subst h
    exact ⟨s0, hget, rfl, by simp [cntSrc], by simp [cntCorr]⟩
  | cons a t ih =>
    intro st st' s0 h hget hclamp hden
    simp only [addEffect, Option.bind_eq_some] at h
    obtain ⟨st1, hu, hrest⟩ := h
    simp only [updAdd] at hu
    by_cases ha : a.source = sn
    · rw [ha] at hu
      have h1 := alGet_upd_self hu
      rw [hget] at h1
      simp only [Option.map_some'] at h1
      have hcnt : 1 ≤ cntSrc (a :: t) sn := by
        rw [cntSrc_cons, if_pos ha]
        omega
      have hcntq : (1 : ℚ) ≤ (cntSrc (a :: t) sn : ℚ) := by exact_mod_cast hcnt
      have hclamp1 : s0.strength + w ≤ maxs := by nlinarith
      have hmin : min (s0.strength + w) maxs = s0.strength + w := min_eq_left hclamp1
      have hd1 : s0.strength + w ≠ 0 := by
        have := hden 1 le_rfl hcnt
        simpa using this
      have hstr1 : (addSrc maxs w (if corr a then 1 else 0) s0).strength = s0.strength + w := by
        rw [addSrc_strength, hmin]
      have hcntc : (cntSrc (a :: t) sn : ℚ) = (cntSrc t sn : ℚ) + 1 := by
        rw [cntSrc_cons, if_pos ha]
        push_cast
        ring
      have hclamp' : (addSrc maxs w (if corr a then 1 else 0) s0).strength +
          (cntSrc t sn : ℚ) * w ≤ maxs := by
        rw [hstr1]
        rw [hcntc] at hclamp
        linarith
      have hden' : ∀ j : ℕ, 1 ≤ j → j ≤ cntSrc t sn →
          (addSrc maxs w (if corr a then 1 else 0) s0).strength + (j : ℚ) * w ≠ 0 := by
        intro j hj1 hj2
        have hj3 : j + 1 ≤ cntSrc (a :: t) sn := by
          rw [cntSrc_cons, if_pos ha]
          omega
        have := hden (j + 1) (by omega) hj3
        rw [hstr1]
        push_cast at this ⊢
        intro hx
        exact this (by linarith)
      obtain ⟨s', hs', hname, hstr, hmass⟩ := ih hrest h1 hclamp' hden'
      have hqs : (addSrc maxs w (if corr a then 1 else 0) s0).quality *
          (addSrc maxs w (if corr a then 1 else 0) s0).strength =
          s0.quality * s0.strength + w * (if corr a then 1 else 0) := by
        rw [addSrc_quality, hstr1]
        exact div_mul_cancel₀ _ hd1
      refine ⟨s', hs', by simpa using hname, ?_, ?_⟩
      · rw [hstr, hstr1, hcntc]
        ring
      · rw [hmass, hqs, cntCorr_cons]
        by_cases hc : corr a = true
        · simp only [ha, hc, and_self, if_true]
          push_cast
          ring
        · have hz : (if a.source = sn ∧ corr a = true then 1 else 0 : ℕ) = 0 := by simp [hc]
          have hz2 : (if corr a = true then (1 : ℚ) else 0) = 0 := by simp [hc]
          rw [hz, hz2]
          push_cast
          ring
    · have h1 := alGet_upd_ne hu (fun he => ha he.symm)
      have hcs : cntSrc (a :: t) sn = cntSrc t sn := by
        rw [cntSrc_cons, if_neg ha]
        omega
      rw [hcs] at hclamp hden
      obtain ⟨s', hs', hname, hstr, hmass⟩ := ih hrest (h1.trans hget) hclamp hden
      refine ⟨s', hs', hname, by rw [hstr, hcs], ?_⟩
      rw [hmass, cntCorr_cons, if_neg (fun hh => ha hh.1)]
      push_cast
      ring

theorem removeEffect_frame {w : ℚ} {corr : Answer → Bool} {sn : String} :
    ∀ {l : List Answer} {st st' : List (String × Source)},
      removeEffect w corr st l = some st' → cntSrc l sn = 0 →
      alGet st' sn = alGet st sn := by
  intro l
  induction l with
  | nil =>
    intro st st' h _
    simp only [removeEffect, Option.some.injEq] at h
    rw [← h]
  | cons a t ih =>
    intro st st' h hcnt
    simp only [removeEffect, Option.bind_eq_some] at h
    obtain ⟨st1, hu, hrest⟩ := h
    simp only [updRemove] at hu
    rw [cntSrc_cons] at hcnt
    by_cases ha : a.source = sn
    · rw [if_pos ha] at hcnt
      omega
    · rw [if_neg ha] at hcnt
      have h1 := alGet_upd_ne hu (fun he => ha he.symm)
      rw [ih hrest (by omega), h1]

theorem addEffect_frame {maxs w : ℚ} {corr : Answer → Bool} {sn : String} :
    ∀ {l : List Answer} {st st' : List (String × Source)},
      addEffect maxs w corr st l = some st' → cntSrc l sn = 0 →
      alGet st' sn = alGet st sn := by
  intro l
  induction l with
  | nil =>
    intro st st' h _
    simp only [addEffect, Option.some.injEq] at h
    rw [← h]
  | cons a t ih =>
    intro st st' h hcnt
    simp only [addEffect, Option.bind_eq_some] at h
    obtain ⟨st1, hu, hrest⟩ := h
    simp only [updAdd] at hu
    rw [cntSrc_cons] at hcnt
    by_cases ha : a.source = sn
    · rw [if_pos ha] at hcnt
      omega
    · rw [if_neg ha] at hcnt
      have h1 := alGet_upd_ne hu (fun he => ha he.symm)
      rw [ih hrest (by omega), h1]

theorem removeEffect_get_none {w : ℚ} {corr : Answer → Bool} {sn : String} :
    ∀ {l : List Answer} {st st' : List (String × Source)},
      removeEffect w corr st l = some st' → alGet st sn = none →
      alGet st' sn = none := by
  intro l
  induction l with
  | nil =>
    intro st st' h hn
    simp only [removeEffect, Option.some.injEq] at h
    rw [← h]
    exact hn
  | cons a t ih =>
    intro st st' h hn
    simp only [removeEffect, Option.bind_eq_some] at h
    obtain ⟨st1, hu, hrest⟩ := h
    simp only [updRemove] at hu
    by_cases ha : a.source = sn
    · rw [ha] at hu
      have := alGet_isSome_of_upd hu
      rw [hn] at this
      simp at this
    · have h1 := alGet_upd_ne hu (fun he => ha he.symm)
      exact ih hrest (h1.trans hn)

theorem addEffect_get_none {maxs w : ℚ} {corr : Answer → Bool} {sn : String} :
    ∀ {l : List Answer} {st st' : List (String × Source)},
      addEffect maxs w corr st l = some st' → alGet st sn = none →
      alGet st' sn = none := by
  intro l
  induction l with
  | nil =>
    intro st st' h hn
    simp only [addEffect, Option.some.injEq] at h
    rw [← h]
    exact hn
  | cons a t ih =>
    intro st st' h hn
    simp only [addEffect, Option.bind_eq_some] at h
    obtain ⟨st1, hu, hrest⟩ := h
    simp only [updAdd] at hu
    by_cases ha : a.source = sn
    · rw [ha] at hu
      have := alGet_isSome_of_upd hu
      rw [hn] at this
      simp at this
    · have h1 := alGet_upd_ne hu (fun he => ha he.symm)
      exact ih hrest (h1.trans hn)

theorem removeEffect_pres_isSome {w : ℚ} {corr : Answer → Bool} {k : String} :
    ∀ {l : List Answer} {st st' : List (String × Source)},
      removeEffect w corr st l = some st' → (alGet st k).isSome →
      (alGet st' k).isSome := by
  intro l
  induction l with
  | nil =>
    intro st st' h hs
    simp only [removeEffect, Option.some.injEq] at h
    rw [← h]
    exact hs
  | cons a t ih =>
    intro st st' h hs
    simp only [removeEffect, Option.bind_eq_some] at h
    obtain ⟨st1, hu, hrest⟩ := h
    simp only [updRemove] at hu
    exact ih hrest (alGet_upd_isSome hu hs)

theorem addEffect_pres_isSome {maxs w : ℚ} {corr : Answer → Bool} {k : String} :
    ∀ {l : List Answer} {st st' : List (String × Source)},
      addEffect maxs w corr st l = some st' → (alGet st k).isSome →
      (alGet st' k).isSome := by
  intro l
  induction l with
  | nil =>
    intro st st' h hs
    simp only [addEffect, Option.some.injEq] at h
    rw [← h]
    exact hs
  | cons a t ih =>
    intro st st' h hs
    simp only [addEffect, Option.bind_eq_some] at h
    obtain ⟨st1, hu, hrest⟩ := h
    simp only [updAdd] at hu
    exact ih hrest (alGet_upd_isSome hu hs)

theorem removeEffect_total {w : ℚ} {corr : Answer → Bool} :
    ∀ {l : List Answer} {st : List (String × Source)},
      (∀ a ∈ l, (alGet st a.source).isSome) →
      ∃ st', removeEffect w corr st l = some st' := by
  intro l
  induction l with
  | nil =>
    intro st _
    exact ⟨st, rfl⟩
  | cons a t ih =>
    intro st hpres
    obtain ⟨v, hv⟩ := Option.isSome_iff_exists.mp (hpres a (by simp))
    have := alUpd_isSome_of_get (removeSrc w (if corr a then 1 else 0)) hv
    obtain ⟨st1, hst1⟩ := Option.isSome_iff_exists.mp this
    obtain ⟨st', hst'⟩ := @ih st1 (fun b hb => alGet_upd_isSome hst1
      (hpres b (List.mem_cons_of_mem a hb)))
    refine ⟨st', ?_⟩
    simp only [removeEffect, updRemove, hst1, Option.some_bind]
    exact hst'

theorem addEffect_range {maxs w : ℚ} {corr : Answer → Bool} :
    ∀ {l : List Answer} {st st' : List (String × Source)},
      addEffect maxs w corr st l = some st' → 0 ≤ w → 0 < maxs →
      (∀ k s, alGet st k = some s →
        0 ≤ s.quality ∧ s.quality ≤ 1 ∧ 0 < s.strength ∧ s.strength ≤ maxs) →
      ∀ k s', alGet st' k = some s' →
        0 ≤ s'.quality ∧ s'.quality ≤ 1 ∧ 0 < s'.strength ∧ s'.strength ≤ maxs := by
  intro l
  induction l with
  | nil =>
    intro st st' h _ _ hst k s' hk
    simp only [addEffect, Option.some.injEq] at h
    subst h
    exact hst k s' hk
  | cons a t ih =>
    intro st st' h hw hmaxs hst k s' hk
    simp only [addEffect, Option.bind_eq_some] at h
    obtain ⟨st1, hu, hrest⟩ := h
    simp only [updAdd] at hu
    refine ih hrest hw hmaxs ?_ k s' hk
    intro k2 s2 hk2
    by_cases hkk : k2 = a.source
    · have h1 := alGet_upd_self hu
      rw [← hkk] at h1
      cases hg : alGet st k2 with
      | none =>
        rw [hg] at h1
        rw [h1] at hk2
        simp at hk2
      | some s0 =>
        rw [hg] at h1
        simp only [Option.map_some'] at h1
        rw [h1, Option.some.injEq] at hk2
        subst hk2
        obtain ⟨hq0, hq1, hs0, _⟩ := hst k2 s0 hg
        have hc0 : (0 : ℚ) ≤ (if corr a = true then 1 else 0) := by
          by_cases h : corr a = true <;> simp [h]
        have hc1 : (if corr a = true then (1 : ℚ) else 0) ≤ 1 := by
          by_cases h : corr a = true <;> simp [h]
        have hsw : 0 < s0.strength + w := by linarith
        refine ⟨?_, ?_, ?_, ?_⟩
        · rw [addSrc_quality]
          apply div_nonneg _ (le_of_lt hsw)
          nlinarith [mul_nonneg hq0 (le_of_lt hs0), mul_nonneg hw hc0]
        · rw [addSrc_quality, div_le_one hsw]
          nlinarith [mul_le_mul_of_nonneg_right hq1 (le_of_lt hs0),
            mul_le_mul_of_nonneg_left hc1 hw]
        · rw [addSrc_strength]
          exact lt_min (by linarith) hmaxs
        · rw [addSrc_strength]
          exact min_le_right _ _
    · have h1 := alGet_upd_ne hu hkk
      exact hst k2 s2 (h1.symm.trans hk2)

/-! ### Inversion of the engine operations -/

theorem remove_question_effect_inv {g g' : Graph} {qn : String}
    (h : remove_question_effect g qn = some g') :
    ∃ q st, alGet g.questions qn = some q ∧
      removeEffect q.weight (questionCorr q) g.sources q.answers = some st ∧
      g' = { g with sources := st } := by
  simp only [remove_question_effect, Option.bind_eq_some] at h
  obtain ⟨q, hq, hmap⟩ := h
  obtain ⟨st, hst, rfl⟩ := Option.map_eq_some'.mp hmap
  exact ⟨q, st, hq, hst, rfl⟩

theorem add_question_effect_inv {g g' : Graph} {qn : String}
    (h : add_question_effect g qn = some g') :
    ∃ q st, alGet g.questions qn = some q ∧
      addEffect g.maximum_strength q.weight (questionCorr q) g.sources q.answers = some st ∧
      g' = { g with sources := st } := by
  simp only [add_question_effect, Option.bind_eq_some] at h
  obtain ⟨q, hq, hmap⟩ := h
  obtain ⟨st, hst, rfl⟩ := Option.map_eq_some'.mp hmap
  exact ⟨q, st, hq, hst, rfl⟩

theorem cawc_inv {mf : MF} {g : Graph} {qn : String}
    {out : List (List ℕ) × List ℚ × ℕ}
    (h : compute_answer_clusters_with_confidence mf g qn = some out) :
    ∃ q confs cc, alGet g.questions qn = some q ∧
      omapM (fun c => (clusterIncorrectChance g.sources q.answers c 1).map (1 - ·))
        (compute_clusters mf g.equalifier q.answers) = some confs ∧
      argmaxf confs = some cc ∧
      out = (compute_clusters mf g.equalifier q.answers, confs, cc) := by
  simp only [compute_answer_clusters_with_confidence, Option.bind_eq_some] at h
  obtain ⟨q, hq, h2⟩ := h
  obtain ⟨confs, hconfs, h3⟩ := h2
  obtain ⟨cc, hcc, h4⟩ := Option.map_eq_some'.mp h3
  exact ⟨q, confs, cc, hq, hconfs, hcc, h4.symm⟩

theorem compute_question_answers_inv {mf : MF} {g g' : Graph} {qn : String}
    (h : compute_question_answers mf g qn = some g') :
    ∃ clusters confs cc cl q corr conf qt,
      compute_answer_clusters_with_confidence mf g qn = some (clusters, confs, cc) ∧
      nth clusters cc = some cl ∧
      alGet g.questions qn = some q ∧
      omapM (nth q.answers) cl = some corr ∧
      nth confs cc = some conf ∧
      alUpd g.questions qn (fun q' =>
        { q' with
          correct_answers := corr
          confidence := conf
          weight :=
            (if 1 < corr.length then -(mf.lg g.log_weight_factor (1 - conf)) else 0) }) =
        some qt ∧
      g' = { g with questions := qt } := by
  simp only [compute_question_answers, Option.bind_eq_some] at h
  obtain ⟨⟨clusters, confs, cc⟩, hc, h2⟩ := h
  simp only at h2
  obtain ⟨cl, hcl, q, hq, corr, hcorr, conf, hconf, h6⟩ := h2
  obtain ⟨qt, hqt, h7⟩ := Option.map_eq_some'.mp h6
  exact ⟨clusters, confs, cc, cl, q, corr, conf, qt, hc, hcl, hq, hcorr, hconf, hqt, h7.symm⟩

theorem getAnswer_inv {mf : MF} {g : Graph} {qn : String} {out : Outcome}
    (h : execute_command mf g (.getAnswer qn) = out) :
    out = .panic ∨ ∃ g2 g3 g4 q,
      remove_question_effect (create_question_if_not_exists g qn) qn = some g2 ∧
      compute_question_answers mf g2 qn = some g3 ∧
      add_question_effect g3 qn = some g4 ∧
      alGet g4.questions qn = some q ∧
      out = .ok ⟨.getAnswer, some q.confidence,
        some (match q.correct_answers.head? with | some a => a.content | none => "None"),
        none, none, none⟩ g4 := by
  simp only [execute_command] at h
  split at h
  · exact Or.inl h.symm
  · rename_i g2 h2
    split at h
    · exact Or.inl h.symm
    · rename_i g3 h3
      split at h
      · exact Or.inl h.symm
      · rename_i g4 h4
        split at h
        · exact Or.inl h.symm
        · rename_i q h5
          exact Or.inr ⟨g2, g3, g4, q, h2, h3, h4, h5, h.symm⟩

theorem set_inv {mf : MF} {g : Graph} {qn ans src : String} {out : Outcome}
    (h : execute_command mf g (.set qn ans src) = out) :
    out = .panic ∨ ∃ g3 qt g5 g6,
      remove_question_effect
        (create_question_if_not_exists (create_source_if_not_exists g src) qn) qn = some g3 ∧
      alUpd g3.questions qn
        (fun q => { q with answers := q.answers ++ [Answer.new ans src] }) = some qt ∧
      compute_question_answers mf { g3 with questions := qt } qn = some g5 ∧
      add_question_effect g5 qn = some g6 ∧
      out = .ok ⟨.set, none, none, none, none, none⟩ g6 := by
  simp only [execute_command] at h
  split at h
  · exact Or.inl h.symm
  · rename_i g3 h2
    split at h
    · exact Or.inl h.symm
    · rename_i qt h3
      split at h
      · exact Or.inl h.symm
      · rename_i g5 h4
        split at h
        · exact Or.inl h.symm
        · rename_i g6 h5
          exact Or.inr ⟨g3, qt, g5, g6, h2, h3, h4, h5, h.symm⟩

/-! ### Lazy creation lemmas -/

theorem create_question_of_present {g : Graph} {qn : String}
    (h : (alGet g.questions qn).isSome) : create_question_if_not_exists g qn = g := by
  simp [create_question_if_not_exists, h]

theorem create_source_of_present {g : Graph} {sn : String}
    (h : (alGet g.sources sn).isSome) : create_source_if_not_exists g sn = g := by
  simp [create_source_if_not_exists, h]

theorem create_question_sub (g : Graph) (qn : String) :
    ∃ qs, create_question_if_not_exists g qn = { g with questions := qs } := by
  unfold create_question_if_not_exists
  split
  · exact ⟨g.questions, rfl⟩
  · exact ⟨_, rfl⟩

theorem create_source_sub (g : Graph) (sn : String) :
    ∃ st, create_source_if_not_exists g sn = { g with sources := st } := by
  unfold create_source_if_not_exists
  split
  · exact ⟨g.sources, rfl⟩
  · exact ⟨_, rfl⟩

theorem create_question_get_self (g : Graph) (qn : String) :
    (alGet (create_question_if_not_exists g qn).questions qn).isSome := by
  by_cases h : (alGet g.questions qn).isSome
  · rw [create_question_of_present h]
    exact h
  · have hn : alGet g.questions qn = none := by
      cases hh : alGet g.questions qn
      · rfl
      · rw [hh] at h
        simp at h
    simp only [create_question_if_not_exists, hn, Option.isSome_none, Bool.false_eq_true,
      if_false]
    rw [alGet_append_self_of_none hn]
    rfl

theorem create_source_get_self (g : Graph) (sn : String) :
    (alGet (create_source_if_not_exists g sn).sources sn).isSome := by
  by_cases h : (alGet g.sources sn).isSome
  · rw [create_source_of_present h]
    exact h
  · have hn : alGet g.sources sn = none := by
      cases hh : alGet g.sources sn
      · rfl
      · rw [hh] at h
        simp at h
    simp only [create_source_if_not_exists, hn, Option.isSome_none, Bool.false_eq_true,
      if_false]
    rw [alGet_append_self_of_none hn]
    rfl

theorem create_source_get_ne {g : Graph} {sn k : String} (hne : k ≠ sn) :
    alGet (create_source_if_not_exists g sn).sources k = alGet g.sources k := by
  unfold create_source_if_not_exists
  split
  · rfl
  · exact alGet_append_of_ne hne

theorem create_question_get_ne {g : Graph} {qn k : String} (hne : k ≠ qn) :
    alGet (create_question_if_not_exists g qn).questions k = alGet g.questions k := by
  unfold create_question_if_not_exists
  split
  · rfl
  · exact alGet_append_of_ne hne

theorem create_question_pres {g : Graph} {qn k : String}
    (h : (alGet g.questions k).isSome) :
    (alGet (create_question_if_not_exists g qn).questions k).isSome := by
  by_cases hp : (alGet g.questions qn).isSome
  · rw [create_question_of_present hp]
    exact h
  · have hn : alGet g.questions qn = none := by
      cases hh : alGet g.questions qn
      · rfl
      · rw [hh] at hp
        simp at hp
    obtain ⟨v, hv⟩ := Option.isSome_iff_exists.mp h
    simp only [create_question_if_not_exists, hn, Option.isSome_none, Bool.false_eq_true,
      if_false]
    exact Option.isSome_iff_exists.mpr ⟨v, alGet_append_of_some hv⟩

theorem create_source_pres {g : Graph} {sn k : String}
    (h : (alGet g.sources k).isSome) :
    (alGet (create_source_if_not_exists g sn).sources k).isSome := by
  by_cases hp : (alGet g.sources sn).isSome
  · rw [create_source_of_present hp]
    exact h
  · have hn : alGet g.sources sn = none := by
      cases hh : alGet g.sources sn
      · rfl
      · rw [hh] at hp
        simp at hp
    obtain ⟨v, hv⟩ := Option.isSome_iff_exists.mp h
    simp only [create_source_if_not_exists, hn, Option.isSome_none, Bool.false_eq_true,
      if_false]
    exact Option.isSome_iff_exists.mpr ⟨v, alGet_append_of_some hv⟩

/-! ### Concrete instances used by the claims -/

/-- A rational stand-in for the library log and sqrt, usable in runs
whose control flow never consults them. -/
def mfZero : MF := ⟨fun _ _ => 0, fun _ => 0⟩

/-- The empty response record (`Default`). -/
def emptyResponse : CommandResponse := ⟨.invalid, none, none, none, none, none⟩

def outResp : Outcome → CommandResponse
  | .ok r _ => r
  | _ => emptyResponse

def outGraph : Outcome → Graph
  | .ok _ g => g
  | .err _ g => g
  | .panic => Graph.new

/-- Sources-table invariant of spec §8.1 / §3. -/
def sourcesInRange (g : Graph) : Prop :=
  ∀ p ∈ g.sources, 0 ≤ p.2.quality ∧ p.2.quality ≤ 1 ∧
    0 ≤ p.2.strength ∧ p.2.strength ≤ g.maximum_strength

instance (g : Graph) : Decidable (sourcesInRange g) := by
  unfold sourcesInRange
  infer_instance

/-- Claim C1, as stated: on a fresh engine every command sequence keeps
every source within `0 ≤ quality ≤ 1` and `0 ≤ strength ≤
maximum_strength`. -/
def C1Claim (mf : MF) : Prop :=
  ∀ (cmds : List Command) (g' : Graph),
    runCmds mf Graph.new cmds = some g' → sourcesInRange g'

/-- A stand-in for the f64 log that supplies the single value the C1
trace evaluates: `(0.25).log(2.0) = -2` exactly (`1/4 = 2^(-2)`, and the
f64 computation returns exactly `-2.0` there). -/
def mfC1 : MF := ⟨fun b x => if b = 2 ∧ x = 1/4 then -2 else 0, fun _ => 0⟩

def c1Trace : List Command :=
  [.configure "log_weight_factor" "2",
   .set "q1" "b" "s1",
   .set "q1" "a" "s2",
   .set "q1" "a" "s3",
   .believe "s1",
   .getAnswer "q1"]

/-! ### Claim C1 -/

/-- Claim C1 is false on the code: after
`CONFIGURE log_weight_factor 2; SET q1 b FROM s1; SET q1 a FROM s2;
SET q1 a FROM s3; BELIEVE s1; GET ANSWER TO q1` the final `GET ANSWER`'s
remove-effect divides the believed source s1 (quality 999/1000, strength
100) by `strength - weight = 98` while removing the weight-2 question
whose correct cluster does not contain s1's answer, leaving
`s1.quality = 999/980 > 1` when the command completes.  The run's only
log evaluation is `log_2(1/4)`, where the exact value `-2` supplied by
`mfC1` agrees with the f64 library log (first conjunct; `1/4 = 2^(-2)`). -/
theorem C1_counterexample :
    (mfC1.lg 2 (1/4) = -2 ∧ (2 : ℚ) ^ (2 : ℕ) * (1/4) = 1) ∧ ¬ C1Claim mfC1 := by
  refine ⟨⟨by decide, by decide⟩, ?_⟩
  intro h
  have h2 := h c1Trace ((runCmds mfC1 Graph.new c1Trace).getD Graph.new) (by decide)
  exact absurd h2 (by decide)

/-- Claim C1 (amended): what survives of the invariant is conditional
and per-phase — if every source starts with `0 ≤ quality ≤ 1` and
`0 < strength ≤ maximum_strength` and the question's weight is
nonnegative, every source satisfies the same bounds after
`add_question_effect`'s loop: the strength bound comes from the code's
`.min(maximum_strength)` clamp, the quality bound from the update being
a convex combination `(q*s + w*c)/(s + w)` (there is no clamp on
quality in the code).  No unconditional full-trace invariant holds: the
remove phase subtracts the weight from strength and recomputes quality
unclamped (see the counterexample), and `CONFIGURE maximum_strength` can
drop the bound below an existing strength. -/
theorem C1_amended (maxs w : ℚ) (corr : Answer → Bool) (st st' : List (String × Source))
    (l : List Answer) (h : addEffect maxs w corr st l = some st') (hw : 0 ≤ w)
    (hmaxs : 0 < maxs)
    (hst : ∀ k s, alGet st k = some s →
      0 ≤ s.quality ∧ s.quality ≤ 1 ∧ 0 < s.strength ∧ s.strength ≤ maxs) :
    ∀ k s', alGet st' k = some s' →
      0 ≤ s'.quality ∧ s'.quality ≤ 1 ∧ 0 < s'.strength ∧ s'.strength ≤ maxs :=
  addEffect_range h hw hmaxs hst

theorem C1_amended_witness :
    ∃ st', addEffect 100 2 (fun _ => true)
        [("s1", ⟨"s1", 1/2, 1⟩)] [Answer.new "a" "s1"] = some st' ∧
      ∀ k s', alGet st' k = some s' →
        0 ≤ s'.quality ∧ s'.quality ≤ 1 ∧ 0 < s'.strength ∧ s'.strength ≤ 100 := by
  refine ⟨(addEffect 100 2 (fun _ => true) [("s1", ⟨"s1", 1/2, 1⟩)]
    [Answer.new "a" "s1"]).getD [], by decide, ?_⟩
  refine C1_amended 100 2 (fun _ => true) [("s1", ⟨"s1", 1/2, 1⟩)] _
    [Answer.new "a" "s1"] (by decide) (by norm_num) (by norm_num) ?_
  intro k s hk
  by_cases hkk : ("s1" : String) = k
  · simp only [alGet, if_pos hkk, Option.some.injEq] at hk
    subst hk
    refine ⟨by norm_num, by norm_num, by norm_num, by norm_num⟩
  · simp only [alGet, if_neg hkk] at hk
    exact absurd hk (by simp)

/-! ### Claim C4 -/

def qC4 : Question :=
  ⟨"q", [Answer.new "a" "s1", Answer.new "a" "s2"], 2, 3/4, [],
    [Answer.new "a" "s1", Answer.new "a" "s2"]⟩

def gC4 : Graph :=
  ⟨[("s1", ⟨"s1", 1/2, 2⟩), ("s2", ⟨"s2", 1/2, 5⟩)], [("q", qC4)], 1/2, 1, 100, 10,
    999/1000, .exact⟩

/-- Claim C4 is false on the code: in `gC4` the source s1 has
`strength = 2 = weight` of question q, yet `remove_question_effect` does
NOT reset it to `(default_source_quality, initial_source_strength) =
(1/2, 1)` — there is no such branch in the code; the division by
`strength - weight = 0` happens unguarded (f64: quality becomes NaN or
±∞) and the strength is set to 0. -/
theorem C4_counterexample :
    alGet gC4.sources "s1" = some ⟨"s1", 1/2, 2⟩ ∧
    (alGet gC4.questions "q").map Question.weight = some 2 ∧
    ∃ g', remove_question_effect gC4 "q" = some g' ∧
      alGet g'.sources "s1" = some ⟨"s1", 0, 0⟩ ∧
      alGet g'.sources "s1" ≠
        some ⟨"s1", gC4.default_source_quality, gC4.initial_source_strength⟩ := by
  refine ⟨by decide, by decide, ?_⟩
  exact ⟨_, rfl, by decide, by decide⟩

/-- Claim C4 (amended): when a source with exactly one answer on the
question has `strength = weight` during remove-effect, no reset to
`(default_source_quality, initial_source_strength)` occurs: the source's
strength becomes 0 (in f64, the unguarded division by zero makes the
quality NaN or ±∞), and no error is surfaced — the operation still
completes (`some`). -/
theorem C4_amended (g : Graph) (qn : String) (q : Question) (sn : String) (s : Source)
    (hq : alGet g.questions qn = some q)
    (hpres : ∀ a ∈ q.answers, (alGet g.sources a.source).isSome)
    (hs : alGet g.sources sn = some s)
    (hsw : s.strength = q.weight)
    (hcnt : cntSrc q.answers sn = 1) :
    ∃ g' s', remove_question_effect g qn = some g' ∧ alGet g'.sources sn = some s' ∧
      s'.strength = 0 := by
  obtain ⟨st, hst⟩ := @removeEffect_total q.weight (questionCorr q) q.answers g.sources hpres
  obtain ⟨s', hs', _, hstr⟩ := removeEffect_strength hst hs
  refine ⟨{ g with sources := st }, s', ?_, hs', ?_⟩
  · simp only [remove_question_effect, hq, Option.some_bind, hst, Option.map_some']
  · rw [hstr, hcnt, hsw]
    push_cast
    ring

theorem C4_amended_witness :
    ∃ g' s', remove_question_effect gC4 "q" = some g' ∧
      alGet g'.sources "s1" = some s' ∧ s'.strength = 0 :=
  C4_amended gC4 "q" qC4 "s1" ⟨"s1", 1/2, 2⟩ (by decide) (by decide) (by decide)
    (by decide) (by decide)

/-! ### Claim C5 -/

/-- Claim C5 is a code bug: `GET ANSWER TO q1` on a fresh engine panics
instead of succeeding with answer `"None"`.  The lazily created question
has no answers, the clusterer returns the empty partition, and `argmaxf`
reads `vec[0]` of the empty confidence vector; the `"None"`-defaulting
read of `correct_answers` further down the arm (the behaviour the claim
describes) is unreachable. -/
theorem C5_getAnswer_fresh_panics :
    execute_command mfZero Graph.new (.getAnswer "q1") = .panic := by decide

/-! ### Claim C9 -/

/-- Claim C9, as stated, for one strategy instance: `is_valid_answer` is
total over arbitrary content and answers the length test. -/
def C9Claim (e : NumericVecEqualifier) : Prop :=
  ∀ content source : String,
    e.is_valid_answer (Answer.new content source) =
      some (decide ((splitStrOn ',' content).length = e.vec_length))

def nveC9 : NumericVecEqualifier := ⟨1, 1, .L1⟩

/-- Claim C9 is false on the code: on content `"x"`, a single
comma-separated component that does not parse as a real,
`is_valid_answer` panics (`split_to_f64_vec` calls
`e.parse::<f64>().unwrap()`), instead of returning `true` for the
matching length 1. -/
theorem C9_counterexample : ¬ C9Claim nveC9 := by
  intro h
  have h1 := h "x" "s"
  have h2 : nveC9.is_valid_answer (Answer.new "x" "s") = none := by decide
  rw [h2] at h1
  exact Option.noConfusion h1

theorem omapM_length {α β : Type} {f : α → Option β} {l : List α} {ys : List β}
    (h : omapM f l = some ys) : ys.length = l.length := by
  induction l generalizing ys with
  | nil =>
    simp only [omapM, Option.some.injEq] at h
    simp [← h]
  | cons a t ih =>
    simp only [omapM, Option.bind_eq_some] at h
    obtain ⟨b, _, h2⟩ := h
    obtain ⟨r', hr', rfl⟩ := Option.map_eq_some'.mp h2
    simp [ih hr']

/-- Claim C9 (amended): when every comma-separated component of the
content parses as a real, `is_valid_answer` returns exactly the length
test `number of components = vec_length`; on an unparsable component it
panics instead of being total. -/
theorem C9_amended (e : NumericVecEqualifier) (content source : String) (vals : List ℚ)
    (hp : omapM parseF64 (splitStrOn ',' content) = some vals) :
    e.is_valid_answer (Answer.new content source) =
      some (decide ((splitStrOn ',' content).length = e.vec_length)) := by
  have hlen := omapM_length hp
  simp only [NumericVecEqualifier.is_valid_answer, split_to_f64_vec]
  rw [show (Answer.new content source).content = content from rfl, hp]
  simp only [Option.map_some', Option.some.injEq]
  rw [hlen]

theorem C9_amended_witness :
    omapM parseF64 (splitStrOn ',' "1.5,2") = some [3/2, 2] ∧
    NumericVecEqualifier.is_valid_answer ⟨1, 2, .L1⟩ (Answer.new "1.5,2" "s") = some true := by
  refine ⟨by decide, ?_⟩
  rw [C9_amended ⟨1, 2, .L1⟩ "1.5,2" "s" [3/2, 2] (by decide)]
  decide

/-! ### Claim C10 -/

/-- Claim C10: `Believe(source)` sets only the named source's record to
`(quality_of_believed_sources, maximum_strength)` (creating it if
absent); every other source, the whole question table, every tunable and
the active similarity strategy are unchanged — in particular no question
recomputation or quality propagation happens. -/
theorem C10_believe (mf : MF) (g : Graph) (sn : String) (r : CommandResponse) (g' : Graph)
    (h : execute_command mf g (.believe sn) = .ok r g') :
    (∃ s', alGet g'.sources sn = some s' ∧
      s'.quality = g.quality_of_believed_sources ∧ s'.strength = g.maximum_strength) ∧
    (∀ k, k ≠ sn → alGet g'.sources k = alGet g.sources k) ∧
    g'.questions = g.questions ∧
    g'.default_source_quality = g.default_source_quality ∧
    g'.initial_source_strength = g.initial_source_strength ∧
    g'.maximum_strength = g.maximum_strength ∧
    g'.log_weight_factor = g.log_weight_factor ∧
    g'.quality_of_believed_sources = g.quality_of_believed_sources ∧
    g'.equalifier = g.equalifier := by
  obtain ⟨st0, hcr⟩ := create_source_sub g sn
  have hget0 : (alGet st0 sn).isSome := by
    have := create_source_get_self g sn
    rw [hcr] at this
    exact this
  simp only [execute_command, hcr] at h
  split at h
  · simp at h
  · rename_i st1 hupd
    simp only [Outcome.ok.injEq] at h
    obtain ⟨_, hg⟩ := h
    subst hg
    obtain ⟨s0, hs0⟩ := Option.isSome_iff_exists.mp hget0
    have h1 := alGet_upd_self hupd
    rw [hs0] at h1
    simp only [Option.map_some'] at h1
    refine ⟨⟨_, h1, rfl, rfl⟩, ?_, rfl, rfl, rfl, rfl, rfl, rfl, rfl⟩
    intro k hk
    have h2 := alGet_upd_ne hupd hk
    have h3 := @create_source_get_ne g sn k hk
    rw [hcr] at h3
    exact h2.trans h3

theorem C10_believe_witness :
    ∃ r g', execute_command mfZero Graph.new (.believe "s4") = .ok r g' ∧
      ∃ s', alGet g'.sources "s4" = some s' ∧
        s'.quality = (999 : ℚ)/1000 ∧ s'.strength = 100 := by
  have hout : execute_command mfZero Graph.new (.believe "s4") =
      .ok (outResp (execute_command mfZero Graph.new (.believe "s4")))
        (outGraph (execute_command mfZero Graph.new (.believe "s4"))) := by decide
  obtain ⟨s', hs', hq, hstr⟩ := (C10_believe mfZero Graph.new "s4" _ _ hout).1
  refine ⟨_, _, hout, s', hs', ?_, ?_⟩
  · rw [hq]
    rfl
  · rw [hstr]
    rfl

/-! ### Table-preservation lemmas for the engine operations -/

theorem create_source_questions (g : Graph) (sn : String) :
    (create_source_if_not_exists g sn).questions = g.questions := by
  unfold create_source_if_not_exists
  split <;> rfl

theorem create_question_sources (g : Graph) (qn : String) :
    (create_question_if_not_exists g qn).sources = g.sources := by
  unfold create_question_if_not_exists
  split <;> rfl

theorem rqe_questions {g g' : Graph} {qn : String}
    (h : remove_question_effect g qn = some g') : g'.questions = g.questions := by
  obtain ⟨q, st, _, _, rfl⟩ := remove_question_effect_inv h
  rfl

theorem rqe_sources_isSome {g g' : Graph} {qn k : String}
    (h : remove_question_effect g qn = some g') (hk : (alGet g.sources k).isSome) :
    (alGet g'.sources k).isSome := by
  obtain ⟨q, st, _, hst, rfl⟩ := remove_question_effect_inv h
  exact removeEffect_pres_isSome hst hk

theorem aqe_questions {g g' : Graph} {qn : String}
    (h : add_question_effect g qn = some g') : g'.questions = g.questions := by
  obtain ⟨q, st, _, _, rfl⟩ := add_question_effect_inv h
  rfl

theorem aqe_sources_isSome {g g' : Graph} {qn k : String}
    (h : add_question_effect g qn = some g') (hk : (alGet g.sources k).isSome) :
    (alGet g'.sources k).isSome := by
  obtain ⟨q, st, _, hst, rfl⟩ := add_question_effect_inv h
  exact addEffect_pres_isSome hst hk

theorem cqa_sources {mf : MF} {g g' : Graph} {qn : String}
    (h : compute_question_answers mf g qn = some g') : g'.sources = g.sources := by
  obtain ⟨_, _, _, _, _, _, _, _, _, _, _, _, _, _, rfl⟩ := compute_question_answers_inv h
  rfl

theorem cqa_questions_isSome {mf : MF} {g g' : Graph} {qn k : String}
    (h : compute_question_answers mf g qn = some g') (hk : (alGet g.questions k).isSome) :
    (alGet g'.questions k).isSome := by
  obtain ⟨_, _, _, _, _, _, _, _, _, _, _, _, _, hqt, rfl⟩ := compute_question_answers_inv h
  exact alGet_upd_isSome hqt hk

theorem cqa_get_self {mf : MF} {g g' : Graph} {qn : String}
    (h : compute_question_answers mf g qn = some g') :
    (alGet g'.questions qn).isSome := by
  obtain ⟨_, _, _, _, q, _, _, qt, _, _, hq, _, _, hqt, rfl⟩ := compute_question_answers_inv h
  show (alGet qt qn).isSome
  rw [alGet_upd_self hqt, hq]
  rfl

theorem getSource_inv {mf : MF} {g : Graph} {sn : String} {out : Outcome}
    (h : execute_command mf g (.getSource sn) = out) :
    out = .panic ∨ ∃ s : Source,
      out = .ok ⟨.getSource, none, none, some s.quality, none, none⟩
        (create_source_if_not_exists g sn) := by
  simp only [execute_command] at h
  split at h
  · exact Or.inl h.symm
  · rename_i s _
    exact Or.inr ⟨s, h.symm⟩

theorem believe_inv {mf : MF} {g : Graph} {sn : String} {out : Outcome}
    (h : execute_command mf g (.believe sn) = out) :
    out = .panic ∨ ∃ st1,
      alUpd (create_source_if_not_exists g sn).sources sn (fun s =>
        { s with
          quality := (create_source_if_not_exists g sn).quality_of_believed_sources
          strength := (create_source_if_not_exists g sn).maximum_strength }) = some st1 ∧
      out = .ok ⟨.believe, none, none, none, none, none⟩
        { create_source_if_not_exists g sn with sources := st1 } := by
  simp only [execute_command] at h
  split at h
  · exact Or.inl h.symm
  · rename_i st1 hst
    exact Or.inr ⟨st1, hst, h.symm⟩

theorem getAnswers_inv {mf : MF} {g : Graph} {qn : String} {out : Outcome}
    (h : execute_command mf g (.getAnswers qn) = out) :
    out = .panic ∨ ∃ ps, out = .ok ⟨.getAnswers, none, none, none, none, some ps⟩ g := by
  simp only [execute_command] at h
  split at h
  · exact Or.inl h.symm
  · rename_i analysis _
    split at h
    · exact Or.inl h.symm
    · rename_i q _
      split at h
      · exact Or.inl h.symm
      · rename_i ps _
        exact Or.inr ⟨ps, h.symm⟩

theorem configure_tables {mf : MF} {g : Graph} {key val : String} {out : Outcome}
    (h : execute_command mf g (.configure key val) = out) :
    out = .panic ∨ (∃ m g', out = .err m g' ∧ g' = g) ∨
      (∃ r g', out = .ok r g' ∧ g'.sources = g.sources ∧ g'.questions = g.questions) := by
  simp only [execute_command] at h
  repeat' split at h
  all_goals first
    | exact Or.inl h.symm
    | exact Or.inr (Or.inl ⟨_, _, h.symm, rfl⟩)
    | exact Or.inr (Or.inr ⟨_, _, h.symm, rfl, rfl⟩)

/-! ### Claim C8 -/

/-- Claim C8 is false on the code: `GET ANSWERS TO q1` on a fresh engine
does NOT lazily create the question — the arm has no
`create_question_if_not_exists` call, so
`compute_answer_clusters_with_confidence`'s `questions.get(..).unwrap()`
panics on the never-seen name instead of succeeding. -/
theorem C8_counterexample :
    alGet Graph.new.questions "q1" = none ∧
    execute_command mfZero Graph.new (.getAnswers "q1") = .panic :=
  ⟨rfl, by decide⟩

/-- Claim C8 (amended): `Set` and `GetAnswer` do create the referenced
question (and `Set` its source) lazily — after a successful run the
entities are present; no command ever deletes a source or question (every
name present before a non-panicking command is present after); but
`GetAnswers` does not create: on a question name not in the table it
panics. -/
theorem C8_amended (mf : MF) (g : Graph) :
    (∀ qn ans src r g', execute_command mf g (.set qn ans src) = .ok r g' →
      (alGet g'.questions qn).isSome ∧ (alGet g'.sources src).isSome) ∧
    (∀ qn r g', execute_command mf g (.getAnswer qn) = .ok r g' →
      (alGet g'.questions qn).isSome) ∧
    (∀ cmd g', step mf g cmd = some g' →
      (∀ k, (alGet g.questions k).isSome → (alGet g'.questions k).isSome) ∧
      (∀ k, (alGet g.sources k).isSome → (alGet g'.sources k).isSome)) ∧
    (∀ qn, alGet g.questions qn = none →
      execute_command mf g (.getAnswers qn) = .panic) := by
  refine ⟨?_, ?_, ?_, ?_⟩
  · intro qn ans src r g' h
    rcases set_inv h with hp | ⟨g3, qt, g5, g6, h2, h3, h4, hadd, ho⟩
    · exact absurd hp (by simp)
    · simp only [Outcome.ok.injEq] at ho
      obtain ⟨-, rfl⟩ := ho
      constructor
      · rw [aqe_questions hadd]
        exact cqa_get_self h4
      · have hs0 := create_source_get_self g src
        have hs1 : (alGet (create_question_if_not_exists
            (create_source_if_not_exists g src) qn).sources src).isSome := by
          rw [create_question_sources]
          exact hs0
        have hs3 := rqe_sources_isSome h2 hs1
        have hs5 : (alGet g5.sources src).isSome := by
          rw [cqa_sources h4]
          exact hs3
        exact aqe_sources_isSome hadd hs5
  · intro qn r g' h
    rcases getAnswer_inv h with hp | ⟨g2, g3, g4, q, h2, h3, h4, h5, ho⟩
    · exact absurd hp (by simp)
    · simp only [Outcome.ok.injEq] at ho
      obtain ⟨-, rfl⟩ := ho
      rw [aqe_questions h4]
      exact cqa_get_self h3
  · intro cmd g' h
    cases cmd with
    | set qn ans src =>
      cases hout : execute_command mf g (.set qn ans src) with
      | panic =>
        simp only [step, hout] at h
        exact Option.noConfusion h
      | err m g2 =>
        rcases set_inv hout with hp | ⟨_, _, _, _, _, _, _, _, ho⟩
        · exact absurd hp (by simp)
        · exact absurd ho (by simp)
      | ok r g2 =>
        simp only [step, hout, Option.some.injEq] at h
        subst h
        rcases set_inv hout with hp | ⟨g3, qt, g5, g6, h2, h3, h4, hadd, ho⟩
        · exact absurd hp (by simp)
        · simp only [Outcome.ok.injEq] at ho
          obtain ⟨-, rfl⟩ := ho
          constructor
          · intro k hk
            have hkA : (alGet (create_source_if_not_exists g src).questions k).isSome := by
              rw [create_source_questions]
              exact hk
            have hkB := @create_question_pres _ qn _ hkA
            have hkC : (alGet g3.questions k).isSome := by
              rw [rqe_questions h2]
              exact hkB
            have hkD : (alGet ({ g3 with questions := qt } : Graph).questions k).isSome :=
              alGet_upd_isSome h3 hkC
            have hkE := cqa_questions_isSome h4 hkD
            rw [aqe_questions hadd]
            exact hkE
          · intro k hk
            have hkA := @create_source_pres _ src _ hk
            have hkB : (alGet (create_question_if_not_exists
                (create_source_if_not_exists g src) qn).sources k).isSome := by
              rw [create_question_sources]
              exact hkA
            have hkC := rqe_sources_isSome h2 hkB
            have hkD : (alGet g5.sources k).isSome := by
              rw [cqa_sources h4]
              exact hkC
            exact aqe_sources_isSome hadd hkD
    | getAnswer qn =>
      cases hout : execute_command mf g (.getAnswer qn) with
      | panic =>
        simp only [step, hout] at h
        exact Option.noConfusion h
      | err m g2 =>
        rcases getAnswer_inv hout with hp | ⟨_, _, _, _, _, _, _, _, ho⟩
        · exact absurd hp (by simp)
        · exact absurd ho (by simp)
      | ok r g2 =>
        simp only [step, hout, Option.some.injEq] at h
        subst h
        rcases getAnswer_inv hout with hp | ⟨g2', g3, g4, q, h2, h3, h4, h5, ho⟩
        · exact absurd hp (by simp)
        · simp only [Outcome.ok.injEq] at ho
          obtain ⟨-, rfl⟩ := ho
          constructor
          · intro k hk
            have hkB := @create_question_pres _ qn _ hk
            have hkC : (alGet g2'.questions k).isSome := by
              rw [rqe_questions h2]
              exact hkB
            have hkE := cqa_questions_isSome h3 hkC
            rw [aqe_questions h4]
            exact hkE
          · intro k hk
            have hkA : (alGet (create_question_if_not_exists g qn).sources k).isSome := by
              rw [create_question_sources]
              exact hk
            have hkC := rqe_sources_isSome h2 hkA
            have hkD : (alGet g3.sources k).isSome := by
              rw [cqa_sources h3]
              exact hkC
            exact aqe_sources_isSome h4 hkD
    | getSource sn =>
      cases hout : execute_command mf g (.getSource sn) with
      | panic =>
        simp only [step, hout] at h
        exact Option.noConfusion h
      | err m g2 =>
        rcases getSource_inv hout with hp | ⟨_, ho⟩
        · exact absurd hp (by simp)
        · exact absurd ho (by simp)
      | ok r g2 =>
        simp only [step, hout, Option.some.injEq] at h
        subst h
        rcases getSource_inv hout with hp | ⟨s, ho⟩
        · exact absurd hp (by simp)
        · simp only [Outcome.ok.injEq] at ho
          obtain ⟨-, rfl⟩ := ho
          constructor
          · intro k hk
            rw [create_source_questions]
            exact hk
          · intro k hk
            exact create_source_pres hk
    | believe sn =>
      cases hout : execute_command mf g (.believe sn) with
      | panic =>
        simp only [step, hout] at h
        exact Option.noConfusion h
      | err m g2 =>
        rcases believe_inv hout with hp | ⟨_, _, ho⟩
        · exact absurd hp (by simp)
        · exact absurd ho (by simp)
      | ok r g2 =>
        simp only [step, hout, Option.some.injEq] at h
        subst h
        rcases believe_inv hout with hp | ⟨st1, hupd, ho⟩
        · exact absurd hp (by simp)
        · simp only [Outcome.ok.injEq] at ho
          obtain ⟨-, rfl⟩ := ho
          constructor
          · intro k hk
            show (alGet (create_source_if_not_exists g sn).questions k).isSome
            rw [create_source_questions]
            exact hk
          · intro k hk
            show (alGet st1 k).isSome
            exact alGet_upd_isSome hupd (create_source_pres hk)
    | configure key val =>
      rcases @configure_tables mf g key val _ rfl with
        hp | ⟨m, g2, heq, rfl⟩ | ⟨r, g2, heq, hsrc, hque⟩
      · simp only [step, hp] at h
        exact Option.noConfusion h
      · simp only [step, heq, Option.some.injEq] at h
        subst h
        exact ⟨fun k hk => hk, fun k hk => hk⟩
      · simp only [step, heq, Option.some.injEq] at h
        subst h
        exact ⟨fun k hk => by rw [hque]; exact hk, fun k hk => by rw [hsrc]; exact hk⟩
    | testEquality a1 a2 =>
      simp only [step, execute_command, Option.some.injEq] at h
      subst h
      exact ⟨fun k hk => hk, fun k hk => hk⟩
    | getAnswers qn =>
      rcases @getAnswers_inv mf g qn _ rfl with
        hp | ⟨ps, heq⟩
      · simp only [step, hp] at h
        exact Option.noConfusion h
      · simp only [step, heq, Option.some.injEq] at h
        subst h
        exact ⟨fun k hk => hk, fun k hk => hk⟩
    | invalid =>
      simp only [step, execute_command, Option.some.injEq] at h
      subst h
      exact ⟨fun k hk => hk, fun k hk => hk⟩
  · intro qn hn
    simp only [execute_command]
    have hc : compute_answer_clusters_with_confidence mf g qn = none := by
      simp only [compute_answer_clusters_with_confidence, hn, Option.none_bind]
    rw [hc]

/-- Concrete instance of the amended C8 claim: after `SET q1 a BY s1` on a
fresh engine the question and the source exist; `GET ANSWER` creates `q2`;
a later `BELIEVE s2` keeps `q1` present; and `GET ANSWERS` on the fresh
engine panics. -/
theorem C8_amended_witness :
    (alGet (outGraph (execute_command mfZero Graph.new (.set "q1" "a" "s1"))).questions
      "q1").isSome ∧
    (alGet (outGraph (execute_command mfZero Graph.new (.set "q1" "a" "s1"))).sources
      "s1").isSome ∧
    (alGet (outGraph (execute_command mfZero
      (outGraph (execute_command mfZero Graph.new (.set "q1" "a" "s1")))
      (.getAnswer "q1"))).questions "q1").isSome ∧
    (alGet ((step mfZero (outGraph (execute_command mfZero Graph.new (.set "q1" "a" "s1")))
      (.believe "s2")).getD Graph.new).questions "q1").isSome ∧
    execute_command mfZero Graph.new (.getAnswers "q1") = .panic := by
  refine ⟨?_, ?_, ?_, ?_, ?_⟩
  · exact ((C8_amended mfZero Graph.new).1 "q1" "a" "s1"
      (outResp (execute_command mfZero Graph.new (.set "q1" "a" "s1")))
      (outGraph (execute_command mfZero Graph.new (.set "q1" "a" "s1")))
      (by decide)).1
  · exact ((C8_amended mfZero Graph.new).1 "q1" "a" "s1"
      (outResp (execute_command mfZero Graph.new (.set "q1" "a" "s1")))
      (outGraph (execute_command mfZero Graph.new (.set "q1" "a" "s1")))
      (by decide)).2
  · exact (C8_amended mfZero
      (outGraph (execute_command mfZero Graph.new (.set "q1" "a" "s1")))).2.1 "q1"
      (outResp (execute_command mfZero
        (outGraph (execute_command mfZero Graph.new (.set "q1" "a" "s1")))
        (.getAnswer "q1")))
      (outGraph (execute_command mfZero
        (outGraph (execute_command mfZero Graph.new (.set "q1" "a" "s1")))
        (.getAnswer "q1")))
      (by decide)
  · exact ((C8_amended mfZero
      (outGraph (execute_command mfZero Graph.new (.set "q1" "a" "s1")))).2.2.1
      (.believe "s2")
      ((step mfZero (outGraph (execute_command mfZero Graph.new (.set "q1" "a" "s1")))
        (.believe "s2")).getD Graph.new)
      (by decide)).1 "q1" (by decide)
  · exact (C8_amended mfZero Graph.new).2.2.2 "q1" rfl

/-! ### Claim C7 -/

/-- Claim C7: a `CONFIGURE` whose execution returns `Err` leaves the
engine state unchanged; an unrecognised key yields
`Unknown configuration key: "<key>"`; `comparison_method` with an
unrecognised method token yields the `unknown comparison method`
message (which interpolates the KEY, not the token); `numeric` without a
parsable `max_distance` parameter yields `max_distance must be
specified`; `numeric_vec` with any of its three parameters missing or
unparsable yields an error. -/
theorem C7_configure (mf : MF) (g : Graph) (key val : String) :
    (∀ msg g', execute_command mf g (.configure key val) = .err msg g' → g' = g) ∧
    (key ∉ (["comparison_method", "default_source_quality", "log_weight_factor",
        "initial_source_strength", "maximum_strength"] : List String) →
      execute_command mf g (.configure key val) =
        .err ("Unknown configuration key: \"" ++ key ++ "\"") g) ∧
    (∀ tok, key = "comparison_method" → (splitWhitespace val).head? = some tok →
      tok ∉ (["exact", "numeric", "numeric_vec"] : List String) →
      execute_command mf g (.configure key val) =
        .err ("unknown comparison method \"" ++ key ++
          "\". Try exact, numeric, or numeric_vec") g) ∧
    (key = "comparison_method" → (splitWhitespace val).head? = some "numeric" →
      (alGet (configParams val) "max_distance").bind parseF64 = none →
      execute_command mf g (.configure key val) =
        .err "max_distance must be specified" g) ∧
    (key = "comparison_method" → (splitWhitespace val).head? = some "numeric_vec" →
      ((alGet (configParams val) "allowed_difference").bind parseF64 = none ∨
       (alGet (configParams val) "vec_length").bind parseUsize = none ∨
       (alGet (configParams val) "diff_fn").bind VecDistAlgo.fromString = none) →
      ∃ m, execute_command mf g (.configure key val) = .err m g) := by
  refine ⟨?_, ?_, ?_, ?_, ?_⟩
  · intro msg g' h
    rcases configure_tables h with hp | ⟨m, g2, heq, hg⟩ | ⟨r, g2, heq, -, -⟩
    · exact absurd hp (by simp)
    · simp only [Outcome.err.injEq] at heq
      obtain ⟨-, rfl⟩ := heq
      exact hg
    · exact absurd heq (by simp)
  · intro hk
    have h1 : ¬(key = "comparison_method") := fun he => hk (by simp [he])
    have h2 : ¬(key = "default_source_quality") := fun he => hk (by simp [he])
    have h3 : ¬(key = "log_weight_factor") := fun he => hk (by simp [he])
    have h4 : ¬(key = "initial_source_strength") := fun he => hk (by simp [he])
    have h5 : ¬(key = "maximum_strength") := fun he => hk (by simp [he])
    simp only [execute_command, if_neg h1, if_neg h2, if_neg h3, if_neg h4, if_neg h5]
  · intro tok hkey htok htok3
    subst hkey
    have h1 : ¬(tok = "exact") := fun he => htok3 (by simp [he])
    have h2 : ¬(tok = "numeric") := fun he => htok3 (by simp [he])
    have h3 : ¬(tok = "numeric_vec") := fun he => htok3 (by simp [he])
    simp only [execute_command, htok, String.reduceEq, reduceIte, if_neg h1, if_neg h2, if_neg h3]
  · intro hkey htok hmd
    subst hkey
    simp only [execute_command, htok, String.reduceEq, reduceIte, hmd]
  · intro hkey htok hmiss
    subst hkey
    rcases hmiss with ha | hv | hd
    · refine ⟨"allowed_difference must be specified (try 1.0)", ?_⟩
      simp only [execute_command, htok, String.reduceEq, reduceIte, ha]
    · cases had : (alGet (configParams val) "allowed_difference").bind parseF64 with
      | none =>
        refine ⟨"allowed_difference must be specified (try 1.0)", ?_⟩
        simp only [execute_command, htok, String.reduceEq, reduceIte, had]
      | some ad =>
        refine ⟨"vec_length must be specified (vector lengths must be fixed)", ?_⟩
        simp only [execute_command, htok, String.reduceEq, reduceIte, had, hv]
    · cases had : (alGet (configParams val) "allowed_difference").bind parseF64 with
      | none =>
        refine ⟨"allowed_difference must be specified (try 1.0)", ?_⟩
        simp only [execute_command, htok, String.reduceEq, reduceIte, had]
      | some ad =>
        cases hvl : (alGet (configParams val) "vec_length").bind parseUsize with
        | none =>
          refine ⟨"vec_length must be specified (vector lengths must be fixed)", ?_⟩
          simp only [execute_command, htok, String.reduceEq, reduceIte, had, hvl]
        | some vl =>
          refine ⟨"diff_fn must be specified (l1, l2, percent_not_equal, iou)", ?_⟩
          simp only [execute_command, htok, String.reduceEq, reduceIte, had, hvl, hd]

/-- Concrete instances of C7: an unknown key, an unknown comparison
method, `numeric` without and with an unparsable `max_distance`,
`numeric_vec` without `vec_length`, and an `Err` leaving the state
unchanged. -/
theorem C7_configure_witness :
    (execute_command mfZero Graph.new (.configure "banana" "1") =
      .err ("Unknown configuration key: \"banana\"") Graph.new) ∧
    (execute_command mfZero Graph.new (.configure "comparison_method" "bogus") =
      .err ("unknown comparison method \"comparison_method\". Try exact, numeric, or numeric_vec")
        Graph.new) ∧
    (execute_command mfZero Graph.new (.configure "comparison_method" "numeric") =
      .err "max_distance must be specified" Graph.new) ∧
    (execute_command mfZero Graph.new (.configure "comparison_method" "numeric max_distance=abc") =
      .err "max_distance must be specified" Graph.new) ∧
    (∃ m, execute_command mfZero Graph.new
      (.configure "comparison_method" "numeric_vec allowed_difference=1.0") =
        .err m Graph.new) ∧
    Graph.new = Graph.new := by
  refine ⟨?_, ?_, ?_, ?_, ?_, ?_⟩
  · exact (C7_configure mfZero Graph.new "banana" "1").2.1 (by decide)
  · exact (C7_configure mfZero Graph.new "comparison_method" "bogus").2.2.1 "bogus" rfl
      (by decide) (by decide)
  · exact (C7_configure mfZero Graph.new "comparison_method" "numeric").2.2.2.1 rfl
      (by decide) (by decide)
  · exact (C7_configure mfZero Graph.new "comparison_method" "numeric max_distance=abc").2.2.2.1
      rfl (by decide) (by decide)
  · exact (C7_configure mfZero Graph.new "comparison_method"
      "numeric_vec allowed_difference=1.0").2.2.2.2 rfl (by decide)
      (Or.inr (Or.inl (by decide)))
  · exact (C7_configure mfZero Graph.new "banana" "1").1 _ _
      ((C7_configure mfZero Graph.new "banana" "1").2.1 (by decide))

/-! ### Claim C2 -/

/-- Claim C2: whenever a question is recomputed, each cluster's confidence
equals `1 - Π (1 - quality)` over its members' sources
(`specClusterConfidence`); the correct cluster index maximises the
confidence with ties broken by lowest index (strict inequality below the
winner); the question's confidence becomes that maximum; its
`correct_answers` becomes the winning cluster's members in original
insertion order (the cluster's indices are strictly increasing); and its
weight becomes `-(log_b (1 - confidence))` when more than one answer is
correct and `0` otherwise. -/
theorem C2_recompute (mf : MF) (g g' : Graph) (qn : String)
    (hrun : compute_question_answers mf g qn = some g') :
    ∃ q q' confs cc cl,
      alGet g.questions qn = some q ∧
      alGet g'.questions qn = some q' ∧
      (∀ c ∈ compute_clusters mf g.equalifier q.answers,
        c ≠ [] ∧ (∀ j ∈ c, j < q.answers.length) ∧ c.Pairwise (· < ·)) ∧
      confs = (compute_clusters mf g.equalifier q.answers).map
        (specClusterConfidence g.sources q.answers) ∧
      cc < confs.length ∧
      (∀ m, m < confs.length → nthD confs m ≤ nthD confs cc) ∧
      (∀ m, m < cc → nthD confs m < nthD confs cc) ∧
      nth (compute_clusters mf g.equalifier q.answers) cc = some cl ∧
      q'.confidence = nthD confs cc ∧
      q'.correct_answers = cl.filterMap (nth q.answers) ∧
      q'.weight = (if 1 < q'.correct_answers.length then
        -(mf.lg g.log_weight_factor (1 - q'.confidence)) else 0) ∧
      q'.answers = q.answers := by
  obtain ⟨clusters, confs, cc, cl, q, corr, conf, qt, hc, hcl, hq, hcorr, hconf, hqt, hg'⟩ :=
    compute_question_answers_inv hrun
  obtain ⟨q2, confs2, cc2, hq2, hconfs, hargmax, hout⟩ := cawc_inv hc
  rw [hq] at hq2
  injection hq2 with hqq
  subst hqq
  simp only [Prod.mk.injEq] at hout
  obtain ⟨hclusters, hconfs2, hcc2⟩ := hout
  subst hclusters
  subst hconfs2
  subst hcc2
  have hq' : alGet g'.questions qn = some ({ q with
      correct_answers := corr
      confidence := conf
      weight := (if 1 < corr.length then -(mf.lg g.log_weight_factor (1 - conf)) else 0) }) := by
    subst hg'
    show alGet qt qn = _
    rw [alGet_upd_self hqt, hq]
    rfl
  refine ⟨q, _, confs, cc, cl, hq, hq', ?_, ?_, ?_, ?_, ?_, hcl, ?_, ?_, rfl, rfl⟩
  · exact compute_clusters_spec
  · refine omapM_eq_map hconfs ?_
    intro c x hx
    obtain ⟨y, hy, rfl⟩ := Option.map_eq_some'.mp hx
    rw [clusterIncorrectChance_spec c 1 y hy]
    simp [specClusterConfidence]
  · exact (argmaxf_spec hargmax).1
  · exact (argmaxf_spec hargmax).2.1
  · exact (argmaxf_spec hargmax).2.2
  · show conf = nthD confs cc
    rw [nthD, hconf]
    rfl
  · show corr = cl.filterMap (nth q.answers)
    exact omapM_eq_filterMap hcorr

/-- The engine state after `SET q1 a BY s1` on a fresh engine. -/
def c2G : Graph := (step mfZero Graph.new (.set "q1" "a" "s1")).getD Graph.new

/-- The state after recomputing `q1` there. -/
def c2G2 : Graph := (compute_question_answers mfZero c2G "q1").getD Graph.new

/-- Concrete instance of C2 on the one-answer question `q1`. -/
theorem C2_recompute_witness :
    ∃ q q' confs cc cl,
      alGet c2G.questions "q1" = some q ∧
      alGet c2G2.questions "q1" = some q' ∧
      (∀ c ∈ compute_clusters mfZero c2G.equalifier q.answers,
        c ≠ [] ∧ (∀ j ∈ c, j < q.answers.length) ∧ c.Pairwise (· < ·)) ∧
      confs = (compute_clusters mfZero c2G.equalifier q.answers).map
        (specClusterConfidence c2G.sources q.answers) ∧
      cc < confs.length ∧
      (∀ m, m < confs.length → nthD confs m ≤ nthD confs cc) ∧
      (∀ m, m < cc → nthD confs m < nthD confs cc) ∧
      nth (compute_clusters mfZero c2G.equalifier q.answers) cc = some cl ∧
      q'.confidence = nthD confs cc ∧
      q'.correct_answers = cl.filterMap (nth q.answers) ∧
      q'.weight = (if 1 < q'.correct_answers.length then
        -(mfZero.lg c2G.log_weight_factor (1 - q'.confidence)) else 0) ∧
      q'.answers = q.answers :=
  C2_recompute mfZero c2G c2G2 "q1" (by decide)

/-! ### Claim C3 -/

/-- Claim C3: removing a question's effect and then adding it back, with
the question's answers, correct set, and weight unchanged in between,
restores every source exactly (in exact arithmetic).  Side conditions
record where the exact claim holds: the weight is nonnegative, no source
is clamped at `maximum_strength` during the re-add, and no intermediate
strength passes through 0 (the division `mass / strength` would otherwise
not be invertible). -/
theorem C3_remove_then_add (g g1 g2 : Graph) (qn : String) (q : Question)
    (hq : alGet g.questions qn = some q)
    (hw : 0 ≤ q.weight)
    (hok : ∀ sn s0, alGet g.sources sn = some s0 →
      s0.strength ≤ g.maximum_strength ∧
      ∀ j : ℕ, j ≤ cntSrc q.answers sn → s0.strength - (j : ℚ) * q.weight ≠ 0)
    (h1 : remove_question_effect g qn = some g1)
    (h2 : add_question_effect g1 qn = some g2) :
    (∀ sn, alGet g2.sources sn = alGet g.sources sn) ∧ g2.questions = g.questions := by
  obtain ⟨qr, st1, hqr, hrem, hg1⟩ := remove_question_effect_inv h1
  rw [hq] at hqr
  injection hqr with hqr'
  subst hqr'
  subst hg1
  obtain ⟨qa, st2, hqa, hadd, hg2⟩ := add_question_effect_inv h2
  have hqa' : alGet g.questions qn = some qa := hqa
  rw [hq] at hqa'
  injection hqa' with hqa''
  subst hqa''
  subst hg2
  constructor
  · intro sn
    show alGet st2 sn = alGet g.sources sn
    by_cases hcnt : cntSrc q.answers sn = 0
    · rw [addEffect_frame hadd hcnt]
      exact removeEffect_frame hrem hcnt
    · cases hs0 : alGet g.sources sn with
      | none => exact addEffect_get_none hadd (removeEffect_get_none hrem hs0)
      | some s0 =>
        obtain ⟨hmax, hne⟩ := hok sn s0 hs0
        obtain ⟨s1, hs1get, hs1name, hs1str, hs1mass⟩ :=
          removeEffect_mass hrem hs0 (fun j _ hj2 => hne j hj2)
        have hadd_bound : s1.strength + (cntSrc q.answers sn : ℚ) * q.weight ≤
            g.maximum_strength := by
          rw [hs1str]
          linarith
        have hadd_ne : ∀ j : ℕ, 1 ≤ j → j ≤ cntSrc q.answers sn →
            s1.strength + (j : ℚ) * q.weight ≠ 0 := by
          intro j hj1 hj2 hz
          rw [hs1str] at hz
          exact hne (cntSrc q.answers sn - j) (Nat.sub_le _ _)
            (by rw [Nat.cast_sub hj2]; linarith)
        obtain ⟨s2, hs2get, hs2name, hs2str, hs2mass⟩ :=
          addEffect_mass hw hadd hs1get hadd_bound hadd_ne
        have hstr2 : s2.strength = s0.strength := by
          rw [hs2str, hs1str]
          ring
        have hmass2 : s2.quality * s2.strength = s0.quality * s0.strength := by
          rw [hs2mass, hs1mass]
          ring
        have hs0ne : s0.strength ≠ 0 := by
          have h0 := hne 0 (Nat.zero_le _)
          simpa using h0
        have hq2 : s2.quality = s0.quality := by
          rw [hstr2] at hmass2
          exact mul_right_cancel₀ hs0ne hmass2
        have hn2 : s2.name = s0.name := hs2name.trans hs1name
        rw [hs2get]
        congr 1
        rw [show s0 = (⟨s0.name, s0.quality, s0.strength⟩ : Source) from rfl,
          ← hn2, ← hq2, ← hstr2]
  · rfl

/-- A question whose effect is in the table: weight 2, one answer each
from `s1` and `s2`, the `s1` answer correct. -/
def qC3 : Question :=
  { name := "q1"
    correct_answers := [Answer.new "a" "s1"]
    weight := 2
    confidence := 1/2
    sources := []
    answers := [Answer.new "a" "s1", Answer.new "b" "s2"] }

/-- A graph holding `qC3` and two sources clear of the clamp and of
strength 0. -/
def gC3 : Graph :=
  { Graph.new with
    sources := [("s1", ⟨"s1", 5/6, 3⟩), ("s2", ⟨"s2", 1/2, 5⟩)]
    questions := [("q1", qC3)] }

/-- The graph after removing `q1`'s effect from `gC3`. -/
def c3G1 : Graph := (remove_question_effect gC3 "q1").getD gC3

/-- The graph after adding the effect back. -/
def c3G2 : Graph := (add_question_effect c3G1 "q1").getD gC3

/-- Concrete instance of C3: the remove/add roundtrip on `gC3` restores
both sources and the question table. -/
theorem C3_remove_then_add_witness :
    alGet c3G2.sources "s1" = alGet gC3.sources "s1" ∧
    alGet c3G2.sources "s2" = alGet gC3.sources "s2" ∧
    c3G2.questions = gC3.questions := by
  have h := C3_remove_then_add gC3 c3G1 c3G2 "q1" qC3 (by decide) (by decide)
    (by
      intro sn s0 hs
      simp only [gC3, alGet] at hs
      split at hs
      · rename_i hsn
        subst hsn
        injection hs with h0
        subst h0
        refine ⟨by decide, ?_⟩
        decide
      · split at hs
        · rename_i hsn
          subst hsn
          injection hs with h0
          subst h0
          refine ⟨by decide, ?_⟩
          decide
        · exact Option.noConfusion hs)
    (by decide) (by decide)
  exact ⟨h.1 "s1", h.1 "s2", h.2⟩

/-! ### Claim C6 -/

theorem omapM_congr {α β : Type} {f g : α → Option β} (h : ∀ x, f x = g x) :
    ∀ l : List α, omapM f l = omapM g l := by
  intro l
  induction l with
  | nil => rfl
  | cons a t ih => simp only [omapM, h a, ih]

theorem forall_alGet {α : Type} {P : String → α → Prop} :
    ∀ {st : List (String × α)}, (∀ p ∈ st, P p.1 p.2) →
      ∀ k v, alGet st k = some v → P k v := by
  intro st
  induction st with
  | nil =>
    intro _ k v hget
    simp [alGet] at hget
  | cons p t ih =>
    obtain ⟨k1, v1⟩ := p
    intro h k v hget
    simp only [alGet] at hget
    split at hget
    · rename_i hk
      injection hget with e
      subst hk
      subst e
      exact h (k1, v1) (by simp)
    · exact ih (fun p hp => h p (List.mem_cons_of_mem _ hp)) k v hget

/-- The spec's reading of C6: on any reachable state, two successive
`GET ANSWER` calls with no command in between give the same answer and
confidence. -/
def C6Claim (mf : MF) : Prop :=
  ∀ cmds g qn r1 g1 r2 g2,
    runCmds mf Graph.new cmds = some g →
    execute_command mf g (.getAnswer qn) = .ok r1 g1 →
    execute_command mf g1 (.getAnswer qn) = .ok r2 g2 →
    r1.answer = r2.answer ∧ r1.confidence = r2.confidence

/-- Rational stand-in for `f64::log`: `log_2 (1/4) = -2` exactly, and
`-11` for `log_2 (1/1960)` (true value `-10.93...`); `sqrt` is unused on
this trace. -/
def mfC6 : MF := ⟨fun _ x => if x = 1/4 then -2 else if x = 1/1960 then -11 else 0, fun _ => 0⟩

/-- Two answers `a` on `q1`, then a `BELIEVE` pinning `s1` at
`maximum_strength`: the next `GET ANSWER`'s add-phase clamps `s1`, so the
read is not reversible. -/
def c6Trace : List Command :=
  [.configure "log_weight_factor" "2",
   .set "q1" "a" "s1",
   .set "q1" "a" "s2",
   .believe "s1"]

def c6g : Graph := (runCmds mfC6 Graph.new c6Trace).getD Graph.new

def c6e1 : Outcome := execute_command mfC6 c6g (.getAnswer "q1")

def c6g1 : Graph := outGraph c6e1

def c6e2 : Outcome := execute_command mfC6 c6g1 (.getAnswer "q1")

/-- Claim C6 is false on the code: after `c6Trace` the two successive
`GET ANSWER TO q1` calls return confidences `1959/1960` and `9696/9701` —
a read mutates the state (remove effect, recompute, re-add effect), and
the clamp at `maximum_strength` makes the mutation irreversible for the
believed source. -/
theorem C6_counterexample : ¬ C6Claim mfC6 := by
  intro h
  have hc := h c6Trace c6g "q1" (outResp c6e1) c6g1 (outResp c6e2) (outGraph c6e2)
    (by decide) (by decide) (by decide)
  exact absurd hc (by decide)

/-- Claim C6 (amended): two successive `GET ANSWER` calls do agree on
answer and confidence provided the state the first call reads is clear of
the two non-invertible effects: no source is clamped at
`maximum_strength` while the first call re-adds the question's effect,
and no intermediate strength is 0.  Under those side conditions the
second call's remove-phase exactly undoes the first call's add-phase, the
recomputation reproduces the same clusters, confidences and winner, and
both responses show the same answer and confidence. -/
theorem C6_amended (mf : MF) (g gmid gcomp : Graph) (qn : String) (qc : Question)
    (r1 r2 : CommandResponse) (g1 g2 : Graph)
    (hmid : remove_question_effect (create_question_if_not_exists g qn) qn = some gmid)
    (hcomp : compute_question_answers mf gmid qn = some gcomp)
    (hqc : alGet gcomp.questions qn = some qc)
    (hw : 0 ≤ qc.weight)
    (hok : ∀ sn s0, alGet gcomp.sources sn = some s0 →
      s0.strength + (cntSrc qc.answers sn : ℚ) * qc.weight ≤ gcomp.maximum_strength ∧
      ∀ j : ℕ, j ≤ cntSrc qc.answers sn → s0.strength + (j : ℚ) * qc.weight ≠ 0)
    (h1 : execute_command mf g (.getAnswer qn) = .ok r1 g1)
    (h2 : execute_command mf g1 (.getAnswer qn) = .ok r2 g2) :
    r1.answer = r2.answer ∧ r1.confidence = r2.confidence := by
  rcases getAnswer_inv h1 with hp | ⟨gA2, gA3, gA4, qA, hA2, hA3, hA4, hqA, houtA⟩
  · exact absurd hp (by simp)
  rw [hmid] at hA2
  injection hA2 with e1
  subst e1
  rw [hcomp] at hA3
  injection hA3 with e2
  subst e2
  obtain ⟨qAdd, stA, hqAdd, haddA, hgA4⟩ := add_question_effect_inv hA4
  rw [hqc] at hqAdd
  injection hqAdd with e3
  subst e3
  have hqA2 : alGet gcomp.questions qn = some qA := by
    rw [← aqe_questions hA4]
    exact hqA
  rw [hqc] at hqA2
  injection hqA2 with e4
  subst e4
  simp only [Outcome.ok.injEq] at houtA
  obtain ⟨hr1, hg1A⟩ := houtA
  rcases getAnswer_inv h2 with hp | ⟨gB2, gB3, gB4, qB, hB2, hB3, hB4, hqB, houtB⟩
  · exact absurd hp (by simp)
  have hg1q : g1.questions = gcomp.questions := by
    rw [hg1A, hgA4]
  have hpres : (alGet g1.questions qn).isSome := by
    rw [hg1q, hqc]
    rfl
  rw [create_question_of_present hpres] at hB2
  obtain ⟨qR, stR, hqR, hremR, hgB2⟩ := remove_question_effect_inv hB2
  have hqR2 : alGet gcomp.questions qn = some qR := by
    rw [← hg1q]
    exact hqR
  rw [hqc] at hqR2
  injection hqR2 with e5
  subst e5
  have hg1s : g1.sources = stA := by
    rw [hg1A, hgA4]
  rw [hg1s] at hremR
  have hpt : ∀ sn, alGet stR sn = alGet gcomp.sources sn := by
    intro sn
    by_cases hcnt : cntSrc qc.answers sn = 0
    · rw [removeEffect_frame hremR hcnt]
      exact addEffect_frame haddA hcnt
    · cases hs0 : alGet gcomp.sources sn with
      | none => exact removeEffect_get_none hremR (addEffect_get_none haddA hs0)
      | some s0 =>
        obtain ⟨hbound, hne⟩ := hok sn s0 hs0
        obtain ⟨s1, hs1get, hs1name, hs1str, hs1mass⟩ :=
          addEffect_mass hw haddA hs0 hbound (fun j _ hj2 => hne j hj2)
        have hremNe : ∀ j : ℕ, 1 ≤ j → j ≤ cntSrc qc.answers sn →
            s1.strength - (j : ℚ) * qc.weight ≠ 0 := by
          intro j hj1 hj2 hz
          rw [hs1str] at hz
          exact hne (cntSrc qc.answers sn - j) (Nat.sub_le _ _)
            (by rw [Nat.cast_sub hj2]; linarith)
        obtain ⟨s2, hs2get, hs2name, hs2str, hs2mass⟩ :=
          removeEffect_mass hremR hs1get hremNe
        have hstr2 : s2.strength = s0.strength := by
          rw [hs2str, hs1str]
          ring
        have hmass2 : s2.quality * s2.strength = s0.quality * s0.strength := by
          rw [hs2mass, hs1mass]
          ring
        have hs0ne : s0.strength ≠ 0 := by
          have h0 := hne 0 (Nat.zero_le _)
          simpa using h0
        have hqual2 : s2.quality = s0.quality := by
          rw [hstr2] at hmass2
          exact mul_right_cancel₀ hs0ne hmass2
        have hn2 : s2.name = s0.name := hs2name.trans hs1name
        rw [hs2get]
        congr 1
        rw [show s0 = (⟨s0.name, s0.quality, s0.strength⟩ : Source) from rfl,
          ← hn2, ← hqual2, ← hstr2]
  obtain ⟨cls1, confs1, cc1, cl1, q0, corr1, conf1, qt1, hcw1, hcl1, hq01, hcorr1, hconf1,
    hqt1, hgcomp⟩ := compute_question_answers_inv hcomp
  obtain ⟨qx1, confsY1, ccY1, hqx1, hconfs1, hargmax1, hout1⟩ := cawc_inv hcw1
  rw [hq01] at hqx1
  injection hqx1 with e6
  subst e6
  simp only [Prod.mk.injEq] at hout1
  obtain ⟨hcls1e, hcf1e, hcc1e⟩ := hout1
  subst hcls1e
  subst hcf1e
  subst hcc1e
  have hqcq : alGet gcomp.questions qn = some ({ q0 with
      correct_answers := corr1
      confidence := conf1
      weight :=
        (if 1 < corr1.length then -(mf.lg gmid.log_weight_factor (1 - conf1)) else 0) }) := by
    rw [hgcomp]
    show alGet qt1 qn = _
    rw [alGet_upd_self hqt1, hq01]
    rfl
  rw [hqc] at hqcq
  injection hqcq with e7
  have hqcCorr : qc.correct_answers = corr1 := by rw [e7]
  have hqcConf : qc.confidence = conf1 := by rw [e7]
  have hqcAns : qc.answers = q0.answers := by rw [e7]
  obtain ⟨cls2, confs2, cc2, cl2, qy, corr2, conf2, qt2, hcw2, hcl2, hqy2, hcorr2, hconf2,
    hqt2, hgB3⟩ := compute_question_answers_inv hB3
  obtain ⟨qx2, confsY2, ccY2, hqx2, hconfs2, hargmax2, hout2⟩ := cawc_inv hcw2
  have hBq : gB2.questions = gcomp.questions := by
    rw [hgB2]
    exact hg1q
  have hqx2' : alGet gcomp.questions qn = some qx2 := by
    rw [← hBq]
    exact hqx2
  rw [hqc] at hqx2'
  injection hqx2' with e8
  subst e8
  have hqy2' : alGet gcomp.questions qn = some qy := by
    rw [← hBq]
    exact hqy2
  rw [hqc] at hqy2'
  injection hqy2' with e9
  subst e9
  simp only [Prod.mk.injEq] at hout2
  obtain ⟨hcls2e, hcf2e, hcc2e⟩ := hout2
  subst hcls2e
  subst hcf2e
  subst hcc2e
  have hBeq : gB2.equalifier = gmid.equalifier := by
    rw [hgB2, hg1A, hgA4, hgcomp]
  have hBsrc : ∀ sn, alGet gB2.sources sn = alGet gmid.sources sn := by
    intro sn
    have hx : alGet gB2.sources sn = alGet stR sn := by rw [hgB2]
    rw [hx, hpt sn, cqa_sources hcomp]
  have hfcongr : ∀ c, (clusterIncorrectChance gB2.sources qc.answers c 1).map (1 - ·) =
      (clusterIncorrectChance gmid.sources q0.answers c 1).map (1 - ·) := by
    intro c
    rw [hqcAns, clusterIncorrectChance_congr hBsrc c 1]
  have hclsEq : compute_clusters mf gB2.equalifier qc.answers =
      compute_clusters mf gmid.equalifier q0.answers := by
    rw [hBeq, hqcAns]
  rw [hclsEq, omapM_congr hfcongr (compute_clusters mf gmid.equalifier q0.answers)]
    at hconfs2
  rw [hconfs1] at hconfs2
  injection hconfs2 with e10
  subst e10
  rw [hargmax1] at hargmax2
  injection hargmax2 with e11
  subst e11
  rw [hclsEq, hcl1] at hcl2
  injection hcl2 with e12
  subst e12
  rw [hqcAns, hcorr1] at hcorr2
  injection hcorr2 with e13
  subst e13
  rw [hconf1] at hconf2
  injection hconf2 with e14
  subst e14
  have hqB3 : alGet gB4.questions qn = some ({ qc with
      correct_answers := corr1
      confidence := conf1
      weight :=
        (if 1 < corr1.length then -(mf.lg gB2.log_weight_factor (1 - conf1)) else 0) }) := by
    rw [aqe_questions hB4, hgB3]
    show alGet qt2 qn = _
    rw [alGet_upd_self hqt2, hBq, hqc]
    rfl
  rw [hqB3] at hqB
  injection hqB with e15
  simp only [Outcome.ok.injEq] at houtB
  obtain ⟨hr2, hg2B⟩ := houtB
  refine ⟨?_, ?_⟩
  · rw [hr1, hr2, ← e15, hqcCorr]
  · rw [hr1, hr2, ← e15, hqcConf]

/-- The engine state after `SET q1 a BY s1` on a fresh engine. -/
def c6wg : Graph := (step mfZero Graph.new (.set "q1" "a" "s1")).getD Graph.new

/-- That state after the first `GET ANSWER`'s remove-phase. -/
def c6wmid : Graph :=
  (remove_question_effect (create_question_if_not_exists c6wg "q1") "q1").getD Graph.new

/-- ... after its recompute-phase. -/
def c6wcomp : Graph := (compute_question_answers mfZero c6wmid "q1").getD Graph.new

/-- The recomputed question. -/
def c6wqc : Question := (alGet c6wcomp.questions "q1").getD (Question.fresh "q1")

def c6we1 : Outcome := execute_command mfZero c6wg (.getAnswer "q1")

def c6wg1 : Graph := outGraph c6we1

def c6we2 : Outcome := execute_command mfZero c6wg1 (.getAnswer "q1")

/-- Concrete instance of the amended C6: on the one-answer question the
side conditions hold (weight 0, no clamp, no zero strength) and the two
reads agree. -/
theorem C6_amended_witness :
    (outResp c6we1).answer = (outResp c6we2).answer ∧
    (outResp c6we1).confidence = (outResp c6we2).confidence :=
  C6_amended mfZero c6wg c6wmid c6wcomp "q1" c6wqc
    (outResp c6we1) (outResp c6we2) c6wg1 (outGraph c6we2)
    (by decide) (by decide) (by decide) (by decide)
    (forall_alGet (by decide))
    (by decide) (by decide)

end Confidis
